import Mathlib

/-
Verification of the File Organization Wizard (Thiebe.py).

Shallow embedding conventions:
* A path component (`Name`) is a list of characters; a `FPath` is the list of
  components below the organizer's root directory (the root itself is `[]`).
* The filesystem state `FS` records the regular files (path and data), the
  directories, and the persisted transaction log.  The log file
  `.organization_history.json` has a reserved hidden name that every scan in
  the program skips and its content is structured JSON, so it is modelled as
  the dedicated `history` component rather than as byte content.
* File bytes are `List Nat`; `datetime.fromtimestamp(st_mtime)` is modelled by
  the year/month/day fields of `FileData`.
* Fallible operations (`stat`, reading file bytes) are modelled with oracles
  `statOk` / `readOk`; `shutil.move` between resolved paths and JSON dumping
  are modelled as always succeeding, matching runs where the move primitive
  itself does not fail.
* The MD5 digest is modelled as the identity on content: the program (and the
  spec) treat digest equality as authoritative evidence of byte equality.
-/

abbrev Name : Type := List Char

abbrev FPath : Type := List Name

/-- `pstarts pre p` is true when `pre` is an initial segment of `p`. -/
def pstarts : FPath → FPath → Bool
  | [], _ => true
  | _ :: _, [] => false
  | a :: as, b :: bs => decide (a = b) && pstarts as bs

/-- Last component of a path (`FPath.name` in pathlib), `[]` for the root. -/
def lastNameD (p : FPath) : Name := p.getLastD []

/-- Parent path (`FPath.parent`). -/
def parentD (p : FPath) : FPath := p.dropLast

/-- `item.name.startswith('.')`. -/
def hiddenName (n : Name) : Bool :=
  match n with
  | [] => false
  | c :: _ => decide (c = '.')

/-- Index where the pathlib suffix of a file name starts: position of the last
dot when it is neither the leading character nor the trailing character,
otherwise the length of the name (empty suffix). -/
def sfxStart (n : Name) : Nat :=
  match n.reverse.findIdx? (fun c => decide (c = '.')) with
  | none => n.length
  | some j =>
    let i := n.length - 1 - j
    if 0 < i ∧ i + 1 < n.length then i else n.length

/-- `PurePath.suffix` of a file name. -/
def pathSuffix (n : Name) : Name := n.drop (sfxStart n)

/-- `PurePath.stem` of a file name. -/
def pathStem (n : Name) : Name := n.take (sfxStart n)

/-- Decimal digit character. -/
def digitChar (n : Nat) : Char := Char.ofNat (48 + n)

/-- Fuel-driven digit rendering; the fuel is only a structural-recursion
bound and never runs out when it starts at `n` (see `natDigits_eq`). -/
def natDigitsF : Nat → Nat → List Char
  | 0, n => [digitChar n]
  | fuel + 1, n =>
    if n < 10 then [digitChar n]
    else natDigitsF fuel (n / 10) ++ [digitChar (n % 10)]

/-- Decimal rendering of a natural number, as produced by `f"{counter}"`. -/
def natDigits (n : Nat) : List Char := natDigitsF n n

/-- The candidate file name `f"{base}_{counter}{ext}"`. -/
def candName (base ext : Name) (k : Nat) : Name := base ++ '_' :: (natDigits k ++ ext)

/-- One recorded move, a `{'from': ..., 'to': ...}` pair of the transaction
log (`src` is `'from'`, `dst` is `'to'`). -/
structure MoveEntry where
  src : FPath
  dst : FPath
deriving DecidableEq

/-- Data of one regular file: bytes and modification date. -/
structure FileData where
  content : List Nat
  year : Nat
  month : Nat
  day : Nat
deriving DecidableEq

/-- The filesystem below one root directory, plus the persisted transaction
log for that root (`.organization_history.json`, `none` when absent). -/
structure FS where
  files : List (FPath × FileData)
  dirs : List FPath
  history : Option (List MoveEntry)
deriving DecidableEq

def FS.file? (fs : FS) (p : FPath) : Option FileData :=
  (fs.files.find? (fun e => decide (e.1 = p))).map (fun e => e.2)

def FS.fileExists (fs : FS) (p : FPath) : Bool := (fs.file? p).isSome

def FS.dirExists (fs : FS) (p : FPath) : Bool :=
  decide (p = []) || fs.dirs.any (fun d => decide (d = p))

/-- `FPath.exists()`: true for a file or a directory. -/
def FS.pathExists (fs : FS) (p : FPath) : Bool := fs.fileExists p || fs.dirExists p

/-- Relocation of one path by a rename of `src` to `dst`. -/
def reroot (src dst p : FPath) : FPath := dst ++ p.drop src.length

/-- Rename of the tree rooted at `src` to `dst`, overwriting a file already at
`dst` (POSIX `os.rename` semantics for a file destination).  All uses in this
development rename a single file to a non-directory destination. -/
def FS.movePath (fs : FS) (src dst : FPath) : FS :=
  { files := fs.files.filterMap (fun e =>
      if pstarts src e.1 then some (reroot src dst e.1, e.2)
      else if e.1 = dst then none else some e),
    dirs := fs.dirs.map (fun d => if pstarts src d then reroot src dst d else d),
    history := fs.history }

/-- `shutil.move(src, dst)`: when `dst` is an existing directory the source is
moved inside it (keeping its base name), otherwise it is a rename to `dst`. -/
def FS.shMove (fs : FS) (src dst : FPath) : FS :=
  if fs.dirExists dst then fs.movePath src (dst ++ [lastNameD src])
  else fs.movePath src dst

/-- `path.mkdir(exist_ok=True)` with an existing parent: fails when a regular
file occupies the path, keeps an existing directory, otherwise creates it. -/
def FS.mkdir1 (fs : FS) (p : FPath) : Except String FS :=
  if fs.fileExists p then .error "FileExistsError"
  else if fs.dirExists p then .ok fs
  else .ok { fs with dirs := fs.dirs ++ [p] }

/-- Fold a fallible step over a list, stopping at the first error. -/
def foldE {α β : Type} (f : α → β → Except String α) : α → List β → Except String α
  | a, [] => .ok a
  | a, b :: bs =>
    match f a b with
    | .error e => .error e
    | .ok a' => foldE f a' bs

/-- `path.mkdir(parents=True, exist_ok=True)`: create every missing ancestor
and the directory itself. -/
def FS.mkdirP (fs : FS) (p : FPath) : Except String FS :=
  foldE FS.mkdir1 fs ((List.range p.length).map (fun k => p.take (k + 1)))

/-- Total number of characters stored in the path components of the state,
used to bound the collision-resolution search. -/
def pathChars (p : FPath) : Nat := (p.map List.length).sum

def FS.charSize (fs : FS) : Nat :=
  (fs.files.map (fun e => pathChars e.1)).sum + (fs.dirs.map pathChars).sum

/-- The `while dest.exists(): dest = category_dir / f"{base}_{counter}{ext}"`
loop of the organizer, searching counters `k, k+1, ...`.  The fuel is always
large enough for the search to succeed (see `resolveLoop_free`). -/
def resolveLoop (fs : FS) (dir : FPath) (base ext : Name) : Nat → Nat → Name
  | 0, k => candName base ext k
  | fuel + 1, k =>
    if fs.pathExists (dir ++ [candName base ext k]) then
      resolveLoop fs dir base ext fuel (k + 1)
    else candName base ext k

def resolveFuel (fs : FS) : Nat := 10 ^ fs.charSize

/-- Destination resolution of `organize_by_category` / `organize_by_date`
(Thiebe.py lines 130-139 and 192-201): `dest = dir / name`; if it exists,
append `_1`, `_2`, ... to the stem until a free path is found. -/
def resolveDest (fs : FS) (dir : FPath) (n : Name) : FPath :=
  if fs.pathExists (dir ++ [n]) then
    dir ++ [resolveLoop fs dir (pathStem n) (pathSuffix n) (resolveFuel fs) 1]
  else dir ++ [n]

/-- The static `FileOrganizer.CATEGORIES` table. -/
def CATEGORIES : List (Name × List Name) :=
  [("Images".toList, [".jpg".toList, ".jpeg".toList, ".png".toList, ".gif".toList,
      ".bmp".toList, ".svg".toList, ".webp".toList, ".ico".toList, ".tiff".toList]),
   ("Documents".toList, [".pdf".toList, ".doc".toList, ".docx".toList, ".txt".toList,
      ".rtf".toList, ".odt".toList, ".xls".toList, ".xlsx".toList, ".ppt".toList,
      ".pptx".toList, ".csv".toList]),
   ("Videos".toList, [".mp4".toList, ".avi".toList, ".mkv".toList, ".mov".toList,
      ".wmv".toList, ".flv".toList, ".webm".toList, ".m4v".toList]),
   ("Audio".toList, [".mp3".toList, ".wav".toList, ".flac".toList, ".aac".toList,
      ".ogg".toList, ".wma".toList, ".m4a".toList]),
   ("Archives".toList, [".zip".toList, ".rar".toList, ".7z".toList, ".tar".toList,
      ".gz".toList, ".bz2".toList]),
   ("Code".toList, [".py".toList, ".js".toList, ".java".toList, ".cpp".toList,
      ".c".toList, ".h".toList, ".cs".toList, ".php".toList, ".html".toList,
      ".css".toList, ".rb".toList, ".go".toList, ".rs".toList]),
   ("Executables".toList, [".exe".toList, ".msi".toList, ".bat".toList, ".sh".toList,
      ".app".toList, ".dmg".toList]),
   ("Data".toList, [".json".toList, ".xml".toList, ".yaml".toList, ".yml".toList,
      ".sql".toList, ".db".toList, ".sqlite".toList]),
   ("Books".toList, [".epub".toList, ".mobi".toList, ".azw".toList, ".azw3".toList]),
   ("Fonts".toList, [".ttf".toList, ".otf".toList, ".woff".toList, ".woff2".toList])]

/-- `FileOrganizer.get_file_category`: lowercase-extension lookup in the
static table, defaulting to `Other`. -/
def get_file_category (p : FPath) : Name :=
  let ext := (pathSuffix (lastNameD p)).map Char.toLower
  match CATEGORIES.find? (fun ce => ce.2.contains ext) with
  | some ce => ce.1
  | none => "Other".toList

/-- One scan record: path, `st_size`, and modification date. -/
structure FileRecord where
  path : FPath
  size : Nat
  year : Nat
  month : Nat
  day : Nat
deriving DecidableEq

def fileRecordOf (e : FPath × FileData) : FileRecord :=
  ⟨e.1, e.2.content.length, e.2.year, e.2.month, e.2.day⟩

/-- Append a value to the group of its key, preserving Python-dict insertion
order (a `defaultdict(list)` keyed by `k`). -/
def groupInsert {κ : Type} [DecidableEq κ] {α : Type} (k : κ) (v : α) :
    List (κ × List α) → List (κ × List α)
  | [] => [(k, [v])]
  | (k', vs) :: rest =>
    if k = k' then (k', vs ++ [v]) :: rest else (k', vs) :: groupInsert k v rest

/-- The entries `scan_directory` iterates over: direct children of the root
that are regular files and not hidden. -/
def scanChildren (fs : FS) : List (FPath × FileData) :=
  fs.files.filter (fun e => decide (e.1.length = 1) && !hiddenName (lastNameD e.1))

/-- Loop body of `scan_directory`: categorize each entry, `stat` it (the
uncaught failure mode of the scanner), and accumulate the grouping and the
total size. -/
def scanGo (statOk : FPath → Bool) :
    List (FPath × FileData) → List (Name × List FileRecord) × Nat →
    Except String (List (Name × List FileRecord) × Nat)
  | [], acc => .ok acc
  | e :: es, (gs, tot) =>
    if statOk e.1 then
      scanGo statOk es
        (groupInsert (get_file_category e.1) (fileRecordOf e) gs, tot + e.2.content.length)
    else .error "StatFailure"

/-- `FileOrganizer.scan_directory` (Thiebe.py lines 58-74). -/
def scan_directory (fs : FS) (statOk : FPath → Bool) :
    Except String (List (Name × List FileRecord) × Nat) :=
  scanGo statOk (scanChildren fs) ([], 0)

/-- Mutable state of one `FileOrganizer` run: the filesystem, the instance's
`self.moves` list, and `moved_count`. -/
structure OrgState where
  fs : FS
  moves : List MoveEntry
  movedCount : Nat
deriving DecidableEq

/-- Per-file body of the organization loops (resolve a collision-free
destination, move, record).  A move whose source no longer exists raises and
is caught (`except` branch): nothing is recorded. -/
def moveOne (dir : FPath) (st : OrgState) (r : FileRecord) : OrgState :=
  if st.fs.fileExists r.path then
    let dest := resolveDest st.fs dir (lastNameD r.path)
    { fs := st.fs.shMove r.path dest,
      moves := st.moves ++ [⟨r.path, dest⟩],
      movedCount := st.movedCount + 1 }
  else st

def runFiles (dir : FPath) : OrgState → List FileRecord → OrgState
  | st, [] => st
  | st, r :: rs => runFiles dir (moveOne dir st r) rs

/-- Per-category body of `organize_by_category`: `category_dir.mkdir(exist_ok=True)`
then move every file of the group. -/
def runGroups : OrgState → List (Name × List FileRecord) → Except String OrgState
  | st, [] => .ok st
  | st, (cat, rs) :: rest =>
    match st.fs.mkdir1 [cat] with
    | .error e => .error e
    | .ok fs' => runGroups (runFiles [cat] { st with fs := fs' } rs) rest

/-- `FileOrganizer.save_history`: dump `self.moves` to the history file,
overwriting any previous log. -/
def saveHistory (st : OrgState) : OrgState :=
  { st with fs := { st.fs with history := some st.moves } }

/-- `FileOrganizer.organize_by_category` (Thiebe.py lines 112-150).  A dry run
only scans and previews; a real run moves every scanned file into its category
folder and persists the history. -/
def organize_by_category (fs : FS) (statOk : FPath → Bool) (dry : Bool)
    (moves0 : List MoveEntry) : Except String OrgState :=
  match scan_directory fs statOk with
  | .error e => .error e
  | .ok (groups, _) =>
    if dry then .ok ⟨fs, moves0, 0⟩
    else
      match runGroups ⟨fs, moves0, 0⟩ groups with
      | .error e => .error e
      | .ok st => .ok (saveHistory st)

/-- `date.strftime('%B')`: English month name. -/
def monthName (m : Nat) : Name :=
  if m = 1 then "January".toList
  else if m = 2 then "February".toList
  else if m = 3 then "March".toList
  else if m = 4 then "April".toList
  else if m = 5 then "May".toList
  else if m = 6 then "June".toList
  else if m = 7 then "July".toList
  else if m = 8 then "August".toList
  else if m = 9 then "September".toList
  else if m = 10 then "October".toList
  else if m = 11 then "November".toList
  else "December".toList

/-- The date bucket `f"{date.year}/{date.strftime('%B')}"` of a record, as the
two path components the slash in the key produces. -/
def dateKey (r : FileRecord) : FPath := [natDigits r.year, monthName r.month]

/-- Per-bucket body of `organize_by_date`: `date_dir.mkdir(parents=True,
exist_ok=True)` then move every file of the bucket. -/
def runDateGroups : OrgState → List (FPath × List FileRecord) → Except String OrgState
  | st, [] => .ok st
  | st, (dk, rs) :: rest =>
    match st.fs.mkdirP dk with
    | .error e => .error e
    | .ok fs' => runDateGroups (runFiles dk { st with fs := fs' } rs) rest

/-- `FileOrganizer.organize_by_date` (Thiebe.py lines 152-212). -/
def organize_by_date (fs : FS) (statOk : FPath → Bool) (dry : Bool)
    (moves0 : List MoveEntry) : Except String OrgState :=
  match scan_directory fs statOk with
  | .error e => .error e
  | .ok (groups, _) =>
    let allFiles := (groups.map Prod.snd).flatten
    let byDate := allFiles.foldl (fun acc r => groupInsert (dateKey r) r acc) []
    if dry then .ok ⟨fs, moves0, 0⟩
    else
      match runDateGroups ⟨fs, moves0, 0⟩ byDate with
      | .error e => .error e
      | .ok st => .ok (saveHistory st)

/-- The files `rglob('*')` yields at any depth, skipping entries whose own
name is hidden (the check is on `item.name` only, so files inside hidden
directories are included). -/
def rglobFiles (fs : FS) : List (FPath × FileData) :=
  fs.files.filter (fun e => !hiddenName (lastNameD e.1))

/-- The MD5 digest, modelled as the identity on content (digest equality is
treated by the program and the spec as authoritative byte equality). -/
def md5 (c : List Nat) : List Nat := c

/-- `FileOrganizer.find_duplicates` (Thiebe.py lines 214-250): hash every
readable non-hidden file, group by digest in insertion order, return the
groups with two or more members. -/
def find_duplicates (fs : FS) (readOk : FPath → Bool) :
    List (List Nat × List FPath) :=
  let hashes := (rglobFiles fs).foldl
    (fun acc e => if readOk e.1 then groupInsert (md5 e.2.content) e.1 acc else acc) []
  hashes.filter (fun g => decide (1 < g.2.length))

/-- One replayed entry of `undo_last_organization`: if the recorded
destination still exists, recreate the parent of the original source and move
the entry back; failures (and vanished destinations) are skipped. -/
def undoStep (fs : FS) (m : MoveEntry) : FS :=
  if fs.pathExists m.dst then
    match fs.mkdirP (parentD m.src) with
    | .error _ => fs
    | .ok fs' => fs'.shMove m.dst m.src
  else fs

/-- `p` has a direct child in the state. -/
def FS.hasChild (fs : FS) (d : FPath) : Bool :=
  fs.files.any (fun e => decide (e.1.length = d.length + 1) && pstarts d e.1) ||
  fs.dirs.any (fun q => decide (q.length = d.length + 1) && pstarts d q)

def FS.rmdir (fs : FS) (d : FPath) : FS :=
  { fs with dirs := fs.dirs.filter (fun q => decide (q ≠ d)) }

/-- Cleanup phase of undo (Thiebe.py lines 290-294): every direct child of the
root that is a directory and is empty is removed. -/
def removeEmptyDirs (fs : FS) : FS :=
  (fs.dirs.filter (fun d => decide (d.length = 1))).foldl
    (fun acc d => if acc.dirExists d && !acc.hasChild d then acc.rmdir d else acc) fs

inductive UndoResult
  | noHistory
  | emptyHistory
  | done
deriving DecidableEq

/-- `FileOrganizer.undo_last_organization` (Thiebe.py lines 260-298). -/
def undo_last_organization (fs : FS) : FS × UndoResult :=
  match fs.history with
  | none => (fs, .noHistory)
  | some moves =>
    if moves = [] then (fs, .emptyHistory)
    else
      let fs1 := moves.reverse.foldl undoStep fs
      let fs2 := removeEmptyDirs fs1
      ({ fs2 with history := none }, .done)

/-- Well-formedness of a filesystem state: file paths are distinct and
non-empty, files and directories do not clash, and every proper prefix of an
entry is a directory (so a regular file never lies strictly above another
entry). -/
structure FS.WF (fs : FS) : Prop where
  nodupFiles : (fs.files.map Prod.fst).Nodup
  nodupDirs : fs.dirs.Nodup
  filesNe : ∀ e ∈ fs.files, e.1 ≠ []
  dirsNe : ∀ d ∈ fs.dirs, d ≠ []
  noClash : ∀ e ∈ fs.files, e.1 ∉ fs.dirs
  fileAncestors : ∀ e ∈ fs.files, ∀ k, k < e.1.length → 0 < k → e.1.take k ∈ fs.dirs
  dirAncestors : ∀ d ∈ fs.dirs, ∀ k, k < d.length → 0 < k → d.take k ∈ fs.dirs

/-- Scenario harness for the resolver contract of the spec: repeatedly
resolve the same desired name `n` against the target directory `dir` and
place a file at each resolved path, exactly as N successive moves of
identically-named files into one bucket do.  Returns the resolved paths in
call order together with the final state. -/
def resolveSeq (fs : FS) (dir : FPath) (n : Name) (data : FileData) : Nat → List FPath × FS
  | 0 => ([], fs)
  | k + 1 =>
    let prev := resolveSeq fs dir n data k
    let d := resolveDest prev.2 dir n
    (prev.1 ++ [d], { prev.2 with files := prev.2.files ++ [(d, data)] })

/-- The path the `j`-th identically-named file placed into `dir` ends up at:
the plain name for the first, `stem_j.ext` afterwards. -/
def pface (dir : FPath) (n : Name) (j : Nat) : FPath :=
  if j = 0 then dir ++ [n] else dir ++ [candName (pathStem n) (pathSuffix n) j]

/-- Invariant of a category-organization run started with an empty `moves`
list: the state is well-formed, the history is untouched, and the recorded
entries have pairwise-distinct root-level sources (vacated) and
pairwise-distinct two-level destinations still holding the moved data. -/
structure RunInv (fs0 : FS) (st : OrgState) : Prop where
  wf : st.fs.WF
  hist : st.fs.history = fs0.history
  srcLen : ∀ m ∈ st.moves, m.src.length = 1
  dstLen : ∀ m ∈ st.moves, m.dst.length = 2
  srcNd : (st.moves.map MoveEntry.src).Nodup
  dstNd : (st.moves.map MoveEntry.dst).Nodup
  dstHolds : ∀ m ∈ st.moves, st.fs.file? m.dst = fs0.file? m.src
  srcSome : ∀ m ∈ st.moves, fs0.file? m.src ≠ none
  srcVac : ∀ m ∈ st.moves, st.fs.file? m.src = none

/-! ### General lemmas about the scanner and the organization loops -/

theorem scanGo_error_iff (statOk : FPath → Bool) :
    ∀ (es : List (FPath × FileData)) (acc : List (Name × List FileRecord) × Nat),
      scanGo statOk es acc = .error "StatFailure" ↔ ∃ e ∈ es, statOk e.1 = false := by
  intro es
  induction es with
  | nil =>
    intro acc
    constructor
    · intro h; rw [scanGo] at h; cases h
    · rintro ⟨e, he, _⟩; cases he
  | cons e es ih =>
    intro acc
    obtain ⟨gs, tot⟩ := acc
    rw [scanGo]
    by_cases h : statOk e.1
    · rw [if_pos h]
      constructor
      · intro herr
        obtain ⟨e', he', hs⟩ := (ih _).1 herr
        exact ⟨e', List.mem_cons_of_mem _ he', hs⟩
      · rintro ⟨e', he', hs⟩
        rcases List.mem_cons.1 he' with rfl | hmem
        · simp [h] at hs
        · exact (ih _).2 ⟨e', hmem, hs⟩
    · rw [if_neg h]
      constructor
      · intro _
        refine ⟨e, List.mem_cons_self e es, ?_⟩
        simpa using h
      · intro _; rfl

theorem runFiles_moves (dir : FPath) :
    ∀ (rs : List FileRecord) (st : OrgState),
      ∃ t, (runFiles dir st rs).moves = st.moves ++ t := by
  intro rs
  induction rs with
  | nil => intro st; exact ⟨[], by simp [runFiles]⟩
  | cons r rs ih =>
    intro st
    obtain ⟨t, ht⟩ := ih (moveOne dir st r)
    by_cases h : st.fs.fileExists r.path
    · refine ⟨⟨r.path, resolveDest st.fs dir (lastNameD r.path)⟩ :: t, ?_⟩
      rw [runFiles, ht]
      simp [moveOne, h]
    · refine ⟨t, ?_⟩
      rw [runFiles, ht]
      simp [moveOne, h]

theorem runGroups_moves :
    ∀ (gs : List (Name × List FileRecord)) (st st' : OrgState),
      runGroups st gs = .ok st' → ∃ t, st'.moves = st.moves ++ t := by
  intro gs
  induction gs with
  | nil => intro st st' h; rw [runGroups] at h; cases h; exact ⟨[], by simp⟩
  | cons g gs ih =>
    intro st st' h
    obtain ⟨cat, rs⟩ := g
    rw [runGroups] at h
    cases hmk : st.fs.mkdir1 [cat] with
    | error e => rw [hmk] at h; cases h
    | ok fs' =>
      rw [hmk] at h
      obtain ⟨t1, ht1⟩ := runFiles_moves [cat] rs { st with fs := fs' }
      obtain ⟨t2, ht2⟩ := ih _ _ h
      exact ⟨t1 ++ t2, by rw [ht2, ht1]; simp⟩

/-! ### C2: stat failure during a scan -/

/-- C2 counterexample: in a root with two regular files `a` and `b`, a stat
failure on `a` makes the whole scan abort with a `StatFailure` error instead
of skipping `a` and returning a record for `b`. -/
theorem C2_counterexample :
    scan_directory ⟨[(["a".toList], ⟨[0], 2023, 1, 1⟩), (["b".toList], ⟨[1], 2023, 1, 1⟩)], [], none⟩
      (fun p => decide (p ≠ ["a".toList])) = .error "StatFailure" := by rfl

/-- C2 (amended): a failure to stat an individual entry aborts the whole
scan — `scan_directory` returns an error (and hence no records at all)
exactly when some scanned entry fails to stat. -/
theorem C2_scan_abort_iff (fs : FS) (statOk : FPath → Bool) :
    scan_directory fs statOk = .error "StatFailure" ↔
      ∃ e ∈ scanChildren fs, statOk e.1 = false := by
  exact scanGo_error_iff statOk (scanChildren fs) ([], 0)

/-! ### C3: undo on an empty history -/

/-- C3 counterexample: with a persisted log holding zero entries, undo
reports `EmptyHistory` but does not delete the log (the state, including the
history, is unchanged). -/
theorem C3_counterexample :
    undo_last_organization ⟨[], [], some []⟩ = (⟨[], [], some []⟩, .emptyHistory) ∧
      (FS.mk [] [] (some [])).history ≠ none := by
  exact ⟨rfl, by simp⟩

/-- C3 (amended): when the persisted log exists but contains zero move
entries, undo fails with `EmptyHistory` and leaves the whole state — the
persisted log included — untouched. -/
theorem C3_empty_history (fs : FS) (h : fs.history = some []) :
    undo_last_organization fs = (fs, .emptyHistory) := by
  rw [undo_last_organization, h]
  rfl

/-- Witness for `C3_empty_history`. -/
theorem C3_empty_history_witness :
    undo_last_organization ⟨[(["x".toList], ⟨[7], 2020, 5, 2⟩)], [["d".toList]], some []⟩ =
      (⟨[(["x".toList], ⟨[7], 2020, 5, 2⟩)], [["d".toList]], some []⟩, .emptyHistory) :=
  C3_empty_history _ rfl

/-! ### C4: unconditional persistence of the log -/

/-- C4 counterexample: a non-dry category run on an empty root succeeds with
zero moves, yet a log is newly persisted (the history file is written with an
empty entry list), refuting "zero successful moves leaves no newly persisted
log". -/
theorem C4_counterexample :
    organize_by_category ⟨[], [], none⟩ (fun _ => true) false [] =
        .ok ⟨⟨[], [], some []⟩, [], 0⟩ ∧
      (FS.mk [] [] (some [])).history ≠ none := by
  exact ⟨rfl, by simp⟩

/-- C4 (amended): every completed non-dry organization run — by category or
by date — persists the transaction log unconditionally, overwriting any prior
log with the instance's current `moves` list, regardless of how many moves
succeeded. -/
theorem C4_always_persists (fs : FS) (statOk : FPath → Bool)
    (moves0 : List MoveEntry) (st : OrgState) :
    (organize_by_category fs statOk false moves0 = .ok st →
        st.fs.history = some st.moves) ∧
      (organize_by_date fs statOk false moves0 = .ok st →
        st.fs.history = some st.moves) := by
  constructor
  · intro h
    rw [organize_by_category] at h
    cases hs : scan_directory fs statOk with
    | error e => rw [hs] at h; cases h
    | ok res =>
      rw [hs] at h
      obtain ⟨groups, tot⟩ := res
      simp only [Bool.false_eq_true, if_false] at h
      cases hr : runGroups ⟨fs, moves0, 0⟩ groups with
      | error e => rw [hr] at h; cases h
      | ok st' => rw [hr] at h; cases h; rfl
  · intro h
    rw [organize_by_date] at h
    cases hs : scan_directory fs statOk with
    | error e => rw [hs] at h; cases h
    | ok res =>
      rw [hs] at h
      obtain ⟨groups, tot⟩ := res
      simp only [Bool.false_eq_true, if_false] at h
      cases hr : runDateGroups ⟨fs, moves0, 0⟩
          (((groups.map Prod.snd).flatten).foldl (fun acc r => groupInsert (dateKey r) r acc) []) with
      | error e => rw [hr] at h; cases h
      | ok st' => rw [hr] at h; cases h; rfl

/-- Witness for `C4_always_persists`. -/
theorem C4_always_persists_witness :
    (FS.mk [] [] (some [])).history = some ([] : List MoveEntry) :=
  (C4_always_persists ⟨[], [], none⟩ (fun _ => true) [] ⟨⟨[], [], some []⟩, [], 0⟩).1 rfl

/-! ### C5: the persisted log accumulates entries across runs -/

/-- C5 counterexample: a first category run on a root with one file `a.txt`
records one move; a second non-dry run on the same instance (its `moves` list
still holds the first run's entry) completes zero moves, yet persists a log
that still contains the first run's entry — the persisted log is not "exactly
the move entries created during the run that persisted it". -/
theorem C5_counterexample :
    organize_by_category ⟨[(["a.txt".toList], ⟨[1], 2023, 3, 15⟩)], [], none⟩
        (fun _ => true) false [] =
      .ok ⟨⟨[(["Documents".toList, "a.txt".toList], ⟨[1], 2023, 3, 15⟩)],
            [["Documents".toList]],
            some [⟨["a.txt".toList], ["Documents".toList, "a.txt".toList]⟩]⟩,
           [⟨["a.txt".toList], ["Documents".toList, "a.txt".toList]⟩], 1⟩ ∧
    organize_by_category
        ⟨[(["Documents".toList, "a.txt".toList], ⟨[1], 2023, 3, 15⟩)],
          [["Documents".toList]],
          some [⟨["a.txt".toList], ["Documents".toList, "a.txt".toList]⟩]⟩
        (fun _ => true) false [⟨["a.txt".toList], ["Documents".toList, "a.txt".toList]⟩] =
      .ok ⟨⟨[(["Documents".toList, "a.txt".toList], ⟨[1], 2023, 3, 15⟩)],
            [["Documents".toList]],
            some [⟨["a.txt".toList], ["Documents".toList, "a.txt".toList]⟩]⟩,
           [⟨["a.txt".toList], ["Documents".toList, "a.txt".toList]⟩], 0⟩ :=
  ⟨rfl, rfl⟩

/-- C5 (amended): the persisted log of a completed non-dry category run is
exactly the instance's whole `moves` list — the entries accumulated since the
`FileOrganizer` was constructed, with any entries already present before the
run kept as a prefix and this run's entries appended in execution order. -/
theorem C5_log_accumulates (fs : FS) (statOk : FPath → Bool)
    (moves0 : List MoveEntry) (st : OrgState)
    (h : organize_by_category fs statOk false moves0 = .ok st) :
    st.fs.history = some st.moves ∧ ∃ t, st.moves = moves0 ++ t := by
  rw [organize_by_category] at h
  cases hs : scan_directory fs statOk with
  | error e => rw [hs] at h; cases h
  | ok res =>
    rw [hs] at h
    obtain ⟨groups, tot⟩ := res
    simp only [Bool.false_eq_true, if_false] at h
    cases hr : runGroups ⟨fs, moves0, 0⟩ groups with
    | error e => rw [hr] at h; cases h
    | ok st' =>
      rw [hr] at h
      cases h
      exact ⟨rfl, runGroups_moves groups _ _ hr⟩

/-- Witness for `C5_log_accumulates`. -/
theorem C5_log_accumulates_witness :
    (FS.mk [] [] (some [⟨["p".toList], ["q".toList]⟩])).history =
        some [⟨["p".toList], ["q".toList]⟩] ∧
      ∃ t, [MoveEntry.mk ["p".toList] ["q".toList]] =
        [MoveEntry.mk ["p".toList] ["q".toList]] ++ t :=
  C5_log_accumulates ⟨[], [], none⟩ (fun _ => true)
    [⟨["p".toList], ["q".toList]⟩]
    ⟨⟨[], [], some [⟨["p".toList], ["q".toList]⟩]⟩, [⟨["p".toList], ["q".toList]⟩], 0⟩ rfl

/-! ### C7: dry runs mutate nothing -/

/-- C7: a dry-run organization, in either mode, returns with the filesystem
state completely unchanged — no directory created, no file moved, and no log
persisted (the `history` component is part of the state) — and does not touch
the instance's `moves` list. -/
theorem C7_dry_run_no_mutation (fs : FS) (statOk : FPath → Bool)
    (moves0 : List MoveEntry) (st : OrgState) :
    (organize_by_category fs statOk true moves0 = .ok st →
        st.fs = fs ∧ st.moves = moves0) ∧
      (organize_by_date fs statOk true moves0 = .ok st →
        st.fs = fs ∧ st.moves = moves0) := by
  constructor
  · intro h
    rw [organize_by_category] at h
    cases hs : scan_directory fs statOk with
    | error e => rw [hs] at h; cases h
    | ok res =>
      rw [hs] at h
      obtain ⟨groups, tot⟩ := res
      simp only [if_true] at h
      cases h
      exact ⟨rfl, rfl⟩
  · intro h
    rw [organize_by_date] at h
    cases hs : scan_directory fs statOk with
    | error e => rw [hs] at h; cases h
    | ok res =>
      rw [hs] at h
      obtain ⟨groups, tot⟩ := res
      simp only [if_true] at h
      cases h
      exact ⟨rfl, rfl⟩

/-- Witness for `C7_dry_run_no_mutation`. -/
theorem C7_dry_run_no_mutation_witness :
    (OrgState.mk ⟨[(["a.txt".toList], ⟨[1], 2023, 3, 15⟩)], [], none⟩ [] 0).fs =
        FS.mk [(["a.txt".toList], ⟨[1], 2023, 3, 15⟩)] [] none ∧
      (OrgState.mk ⟨[(["a.txt".toList], ⟨[1], 2023, 3, 15⟩)], [], none⟩ [] 0).moves = [] :=
  (C7_dry_run_no_mutation ⟨[(["a.txt".toList], ⟨[1], 2023, 3, 15⟩)], [], none⟩
    (fun _ => true) [] ⟨⟨[(["a.txt".toList], ⟨[1], 2023, 3, 15⟩)], [], none⟩, [], 0⟩).1 rfl

/-! ### C9: date bucketing -/

/-- C9: date-based organization buckets by `"<year>/<month-name>"` — the
bucket of every record is `dateKey`, the key `organize_by_date` groups by.  A
root whose single file was modified on 2023-03-15 has it moved into
`2023/March`, and any two records with equal year and month get the same
bucket regardless of day. -/
theorem C9_date_bucket :
    organize_by_date ⟨[(["a.txt".toList], ⟨[1], 2023, 3, 15⟩)], [], none⟩
        (fun _ => true) false [] =
      .ok ⟨⟨[(["2023".toList, "March".toList, "a.txt".toList], ⟨[1], 2023, 3, 15⟩)],
            [["2023".toList], ["2023".toList, "March".toList]],
            some [⟨["a.txt".toList], ["2023".toList, "March".toList, "a.txt".toList]⟩]⟩,
           [⟨["a.txt".toList], ["2023".toList, "March".toList, "a.txt".toList]⟩], 1⟩ ∧
      ∀ r1 r2 : FileRecord, r1.year = r2.year → r1.month = r2.month →
        dateKey r1 = dateKey r2 := by
  constructor
  · rfl
  · intro r1 r2 h1 h2
    simp [dateKey, h1, h2]

/-- Witness for `C9_date_bucket`. -/
theorem C9_date_bucket_witness :
    dateKey ⟨["a".toList], 1, 2023, 3, 15⟩ = dateKey ⟨["b".toList], 2, 2023, 3, 9⟩ :=
  C9_date_bucket.2 ⟨["a".toList], 1, 2023, 3, 15⟩ ⟨["b".toList], 2, 2023, 3, 9⟩ rfl rfl

/-! ### Lemmas about digest grouping -/

theorem groupInsert_members {κ α : Type} [DecidableEq κ] (k : κ) (v : α) :
    ∀ (acc : List (κ × List α)) (g : κ × List α), g ∈ groupInsert k v acc →
      ∀ p ∈ g.2, p = v ∨ ∃ g' ∈ acc, p ∈ g'.2 := by
  intro acc
  induction acc with
  | nil =>
    intro g hg p hp
    rw [groupInsert] at hg
    rcases List.mem_cons.1 hg with rfl | h
    · rcases List.mem_cons.1 hp with rfl | h
      · exact Or.inl rfl
      · cases h
    · cases h
  | cons gh rest ih =>
    intro g hg p hp
    obtain ⟨k', vs⟩ := gh
    rw [groupInsert] at hg
    by_cases hk : k = k'
    · rw [if_pos hk] at hg
      rcases List.mem_cons.1 hg with rfl | hmem
      · rcases List.mem_append.1 hp with h1 | h2
        · exact Or.inr ⟨(k', vs), List.mem_cons_self _ _, h1⟩
        · rcases List.mem_cons.1 h2 with rfl | h
          · exact Or.inl rfl
          · cases h
      · exact Or.inr ⟨g, List.mem_cons_of_mem _ hmem, hp⟩
    · rw [if_neg hk] at hg
      rcases List.mem_cons.1 hg with rfl | hmem
      · exact Or.inr ⟨(k', vs), List.mem_cons_self _ _, hp⟩
      · rcases ih g hmem p hp with h | ⟨g', hg', hp'⟩
        · exact Or.inl h
        · exact Or.inr ⟨g', List.mem_cons_of_mem _ hg', hp'⟩

theorem groupInsert_fresh {κ α : Type} [DecidableEq κ] (k : κ) (v : α) :
    ∀ (acc : List (κ × List α)), (∀ g ∈ acc, g.1 ≠ k) →
      groupInsert k v acc = acc ++ [(k, [v])] := by
  intro acc
  induction acc with
  | nil => intro _; rfl
  | cons gh rest ih =>
    intro h
    obtain ⟨k', vs⟩ := gh
    rw [groupInsert]
    rw [if_neg (fun hk => (h (k', vs) (List.mem_cons_self _ _)) hk.symm)]
    rw [ih (fun g hg => h g (List.mem_cons_of_mem _ hg))]
    simp

theorem dupFold_members (readOk : FPath → Bool) (P : FPath → Prop) :
    ∀ (L : List (FPath × FileData)) (acc : List (List Nat × List FPath)),
      (∀ g ∈ acc, ∀ p ∈ g.2, P p) →
      (∀ e ∈ L, readOk e.1 = true → P e.1) →
      ∀ g ∈ L.foldl
          (fun acc e => if readOk e.1 then groupInsert (md5 e.2.content) e.1 acc else acc) acc,
        ∀ p ∈ g.2, P p := by
  intro L
  induction L with
  | nil => intro acc hacc _ g hg; exact hacc g hg
  | cons e es ih =>
    intro acc hacc hL g hg p hp
    rw [List.foldl_cons] at hg
    by_cases hr : readOk e.1
    · rw [if_pos hr] at hg
      refine ih _ ?_ (fun e' he' => hL e' (List.mem_cons_of_mem _ he')) g hg p hp
      intro g' hg' p' hp'
      rcases groupInsert_members _ _ _ g' hg' p' hp' with rfl | ⟨g'', hg'', hp''⟩
      · exact hL e (List.mem_cons_self _ _) hr
      · exact hacc g'' hg'' p' hp''
    · rw [if_neg hr] at hg
      exact ih _ hacc (fun e' he' => hL e' (List.mem_cons_of_mem _ he')) g hg p hp

theorem dupFold_singletons (readOk : FPath → Bool) :
    ∀ (L : List (FPath × FileData)) (acc : List (List Nat × List FPath)),
      L.Pairwise (fun e1 e2 => e1.2.content ≠ e2.2.content) →
      (∀ g ∈ acc, g.2.length = 1) →
      (∀ g ∈ acc, ∀ e ∈ L, readOk e.1 = true → g.1 ≠ md5 e.2.content) →
      ∀ g ∈ L.foldl
          (fun acc e => if readOk e.1 then groupInsert (md5 e.2.content) e.1 acc else acc) acc,
        g.2.length = 1 := by
  intro L
  induction L with
  | nil => intro acc _ hacc _ g hg; exact hacc g hg
  | cons e es ih =>
    intro acc hpw hacc hfresh g hg
    rw [List.foldl_cons] at hg
    rw [List.pairwise_cons] at hpw
    by_cases hr : readOk e.1
    · rw [if_pos hr] at hg
      rw [groupInsert_fresh _ _ _
        (fun g' hg' => hfresh g' hg' e (List.mem_cons_self _ _) hr)] at hg
      refine ih _ hpw.2 ?_ ?_ g hg
      · intro g' hg'
        rcases List.mem_append.1 hg' with h1 | h2
        · exact hacc g' h1
        · rcases List.mem_cons.1 h2 with rfl | h
          · rfl
          · cases h
      · intro g' hg' e' he' hre'
        rcases List.mem_append.1 hg' with h1 | h2
        · exact hfresh g' h1 e' (List.mem_cons_of_mem _ he') hre'
        · rcases List.mem_cons.1 h2 with rfl | h
          · simp only [md5]
            exact hpw.1 e' he'
          · cases h
    · rw [if_neg hr] at hg
      exact ih _ hpw.2 hacc
        (fun g' hg' e' he' => hfresh g' hg' e' (List.mem_cons_of_mem _ he')) g hg

/-! ### C8: duplicate detection -/

/-- C8: (1) in a tree with files `a`, `b` of identical bytes and `c` of
different bytes, `find_duplicates` returns exactly one group, containing `a`
and `b`; (2) when all file contents are pairwise distinct it returns the
empty sequence (not an error); (3) a file that cannot be read is excluded
from every returned group. -/
theorem C8_find_duplicates :
    (∀ (a b c : FPath) (da db dc : FileData) (dirs : List FPath)
        (hist : Option (List MoveEntry)) (readOk : FPath → Bool),
        hiddenName (lastNameD a) = false → hiddenName (lastNameD b) = false →
        hiddenName (lastNameD c) = false →
        readOk a = true → readOk b = true → readOk c = true →
        db.content = da.content → dc.content ≠ da.content →
        find_duplicates ⟨[(a, da), (b, db), (c, dc)], dirs, hist⟩ readOk =
          [(md5 da.content, [a, b])]) ∧
    (∀ (fs : FS) (readOk : FPath → Bool),
        (rglobFiles fs).Pairwise (fun e1 e2 => e1.2.content ≠ e2.2.content) →
        find_duplicates fs readOk = []) ∧
    (∀ (fs : FS) (readOk : FPath → Bool) (x : FPath), readOk x = false →
        ∀ g ∈ find_duplicates fs readOk, x ∉ g.2) := by
  refine ⟨?_, ?_, ?_⟩
  · intro a b c da db dc dirs hist readOk hha hhb hhc hra hrb hrc hab hc
    simp [find_duplicates, rglobFiles, hha, hhb, hhc, hra, hrb, hrc, groupInsert, md5, hab, hc]
  · intro fs readOk hpw
    simp only [find_duplicates]
    rw [List.filter_eq_nil_iff]
    intro g hg
    have h1 := dupFold_singletons readOk (rglobFiles fs) []
      hpw (by intro g' hg'; cases hg') (by intro g' hg'; cases hg') g hg
    simp [h1]
  · intro fs readOk x hx g hg hxg
    simp only [find_duplicates] at hg
    have hg' := List.mem_of_mem_filter hg
    have hmem := dupFold_members readOk (fun p => readOk p = true) (rglobFiles fs) []
      (by intro g' hg'; cases hg') (fun e _ hr => hr) g hg' x hxg
    have hmem' : readOk x = true := hmem
    rw [hx] at hmem'
    cases hmem'

/-- Witness for `C8_find_duplicates`. -/
theorem C8_find_duplicates_witness :
    find_duplicates
        ⟨[(["a".toList], ⟨[1, 2], 0, 0, 0⟩), (["b".toList], ⟨[1, 2], 0, 0, 0⟩),
          (["c".toList], ⟨[3], 0, 0, 0⟩)], [], none⟩ (fun _ => true) =
      [(md5 [1, 2], [["a".toList], ["b".toList]])] :=
  C8_find_duplicates.1 ["a".toList] ["b".toList] ["c".toList]
    ⟨[1, 2], 0, 0, 0⟩ ⟨[1, 2], 0, 0, 0⟩ ⟨[3], 0, 0, 0⟩ [] none (fun _ => true)
    rfl rfl rfl rfl rfl rfl rfl (by decide)

/-! ### Decimal rendering lemmas -/

theorem natDigitsF_stable :
    ∀ (fuel n fuel' : Nat), n ≤ fuel → n ≤ fuel' →
      natDigitsF fuel n = natDigitsF fuel' n := by
  intro fuel
  induction fuel with
  | zero =>
    intro n fuel' h1 _
    rcases Nat.le_zero.1 h1 with rfl
    cases fuel' <;> simp [natDigitsF]
  | succ fuel ih =>
    intro n fuel' h1 h2
    cases fuel' with
    | zero =>
      rcases Nat.le_zero.1 h2 with rfl
      simp [natDigitsF]
    | succ fuel'' =>
      by_cases h : n < 10
      · simp [natDigitsF, h]
      · rw [natDigitsF, natDigitsF, if_neg h, if_neg h]
        have hn : 0 < n := by omega
        have hd : n / 10 < n := Nat.div_lt_self hn (by norm_num)
        rw [ih (n / 10) fuel'' (by omega) (by omega)]

theorem natDigits_eq (n : Nat) :
    natDigits n =
      if n < 10 then [digitChar n]
      else natDigits (n / 10) ++ [digitChar (n % 10)] := by
  by_cases h : n < 10
  · rw [if_pos h, natDigits]
    cases n with
    | zero => simp [natDigitsF]
    | succ m => simp [natDigitsF, h]
  · rw [if_neg h]
    obtain ⟨m, rfl⟩ : ∃ m, n = m + 1 := ⟨n - 1, by omega⟩
    rw [natDigits, natDigitsF, if_neg h, natDigits]
    have hd : (m + 1) / 10 < m + 1 := Nat.div_lt_self (by omega) (by norm_num)
    rw [natDigitsF_stable m ((m + 1) / 10) ((m + 1) / 10) (by omega) (by omega)]

theorem natDigits_ne_nil (n : Nat) : natDigits n ≠ [] := by
  rw [natDigits_eq]
  by_cases h : n < 10
  · simp [h]
  · simp [h]

theorem natDigits_len : ∀ (m n : Nat), 10 ^ m ≤ n → m + 1 ≤ (natDigits n).length := by
  intro m
  induction m with
  | zero =>
    intro n _
    have := natDigits_ne_nil n
    cases hh : natDigits n with
    | nil => exact absurd hh this
    | cons a l => simp
  | succ m ih =>
    intro n h
    have h10 : ¬ n < 10 := by
      have : (10 : Nat) ≤ 10 ^ (m + 1) := by
        calc (10 : Nat) = 10 ^ 1 := by norm_num
        _ ≤ 10 ^ (m + 1) := Nat.pow_le_pow_right (by norm_num) (by omega)
      omega
    rw [natDigits_eq, if_neg h10]
    have hdiv : 10 ^ m ≤ n / 10 := by
      rw [Nat.le_div_iff_mul_le (by norm_num)]
      calc 10 ^ m * 10 = 10 ^ (m + 1) := by ring
      _ ≤ n := h
    have := ih (n / 10) hdiv
    simp only [List.length_append, List.length_cons, List.length_nil]
    omega

theorem digitChar_inj : ∀ a < 10, ∀ b < 10, digitChar a = digitChar b → a = b := by
  decide

theorem natDigits_inj : ∀ a b : Nat, natDigits a = natDigits b → a = b := by
  intro a
  induction a using Nat.strong_induction_on with
  | _ a ih =>
    intro b h
    rw [natDigits_eq a, natDigits_eq b] at h
    by_cases ha : a < 10 <;> by_cases hb : b < 10
    · rw [if_pos ha, if_pos hb] at h
      injection h with h1 _
      exact digitChar_inj a ha b hb h1
    · rw [if_pos ha, if_neg hb] at h
      have hlen := congrArg List.length h
      have hne := natDigits_ne_nil (b / 10)
      simp only [List.length_cons, List.length_nil, List.length_append] at hlen
      cases hd : natDigits (b / 10) with
      | nil => exact absurd hd hne
      | cons x l => rw [hd] at hlen; simp at hlen
    · rw [if_neg ha, if_pos hb] at h
      have hlen := congrArg List.length h
      have hne := natDigits_ne_nil (a / 10)
      simp only [List.length_cons, List.length_nil, List.length_append] at hlen
      cases hd : natDigits (a / 10) with
      | nil => exact absurd hd hne
      | cons x l => rw [hd] at hlen; simp at hlen
    · rw [if_neg ha, if_neg hb] at h
      have hinj := List.append_inj' h (by simp)
      have hdiv : a / 10 = b / 10 := by
        have hlt : a / 10 < a := Nat.div_lt_self (by omega) (by norm_num)
        exact ih (a / 10) hlt (b / 10) hinj.1
      have hmod : a % 10 = b % 10 := by
        have h2 := hinj.2
        injection h2 with h3 _
        exact digitChar_inj (a % 10) (Nat.mod_lt a (by norm_num)) (b % 10)
          (Nat.mod_lt b (by norm_num)) h3
      omega

/-! ### Path and resolver lemmas -/

theorem pstarts_iff : ∀ (pre p : FPath), pstarts pre p = true ↔ ∃ q, p = pre ++ q := by
  intro pre
  induction pre with
  | nil => intro p; simp [pstarts]
  | cons a as ih =>
    intro p
    cases p with
    | nil => simp [pstarts]
    | cons b bs =>
      simp only [pstarts, Bool.and_eq_true, decide_eq_true_eq, List.cons_append,
        List.cons.injEq, ih]
      constructor
      · rintro ⟨h1, q, hq⟩
        exact ⟨q, h1.symm, hq⟩
      · rintro ⟨q, h1, hq⟩
        exact ⟨h1.symm, q, hq⟩

theorem candName_length (base ext : Name) (k : Nat) :
    (candName base ext k).length = base.length + 1 + (natDigits k).length + ext.length := by
  simp [candName]
  omega

theorem natDigits_len_pos (k : Nat) : 1 ≤ (natDigits k).length := by
  cases hd : natDigits k with
  | nil => exact absurd hd (natDigits_ne_nil k)
  | cons x l => simp

theorem candName_inj (base ext : Name) {j k : Nat}
    (h : candName base ext j = candName base ext k) : j = k := by
  rw [candName, candName] at h
  have h1 := List.append_cancel_left h
  injection h1 with _ h2
  exact natDigits_inj j k (List.append_cancel_right h2)

theorem stem_sfx_length (n : Name) :
    (pathStem n).length + (pathSuffix n).length = n.length := by
  rw [pathStem, pathSuffix]
  simp only [List.length_take, List.length_drop]
  omega

theorem candName_ne_plain (n : Name) (k : Nat) :
    n ≠ candName (pathStem n) (pathSuffix n) k := by
  intro h
  have h1 := congrArg List.length h
  rw [candName_length] at h1
  have h2 := stem_sfx_length n
  have h3 := natDigits_len_pos k
  omega

theorem pathExists_name_le (fs : FS) (dir : FPath) (nm : Name)
    (h : fs.pathExists (dir ++ [nm]) = true) : nm.length ≤ fs.charSize := by
  rw [FS.pathExists, Bool.or_eq_true] at h
  have hchars : pathChars (dir ++ [nm]) = pathChars dir + nm.length := by
    simp [pathChars]
  rcases h with h | h
  · rw [FS.fileExists, FS.file?] at h
    rw [Option.isSome_map'] at h
    rw [List.find?_isSome] at h
    obtain ⟨e, he, hpred⟩ := h
    have he1 : e.1 = dir ++ [nm] := of_decide_eq_true hpred
    have hle1 : pathChars e.1 ≤ (fs.files.map (fun e => pathChars e.1)).sum :=
      List.single_le_sum (fun y _ => Nat.zero_le y) _
        (List.mem_map_of_mem (fun e => pathChars e.1) he)
    rw [he1, hchars] at hle1
    rw [FS.charSize]
    omega
  · rw [FS.dirExists, Bool.or_eq_true] at h
    rcases h with h | h
    · have : dir ++ [nm] = [] := of_decide_eq_true h
      simp at this
    · rw [List.any_eq_true] at h
      obtain ⟨d, hd, hpred⟩ := h
      have hd1 : d = dir ++ [nm] := of_decide_eq_true hpred
      have hle1 : pathChars d ≤ (fs.dirs.map pathChars).sum :=
        List.single_le_sum (fun y _ => Nat.zero_le y) _
          (List.mem_map_of_mem pathChars hd)
      rw [hd1, hchars] at hle1
      rw [FS.charSize]
      omega

theorem resolveLoop_first (fs : FS) (dir : FPath) (base ext : Name) :
    ∀ (fuel start target : Nat), start ≤ target → target < start + fuel →
      (∀ j, start ≤ j → j < target →
        fs.pathExists (dir ++ [candName base ext j]) = true) →
      fs.pathExists (dir ++ [candName base ext target]) = false →
      resolveLoop fs dir base ext fuel start = candName base ext target := by
  intro fuel
  induction fuel with
  | zero => intro start target h1 h2 _ _; omega
  | succ fuel ih =>
    intro start target h1 h2 hocc hfree
    rw [resolveLoop]
    by_cases hst : start = target
    · subst hst
      rw [if_neg (by rw [hfree]; simp)]
    · have hlt : start < target := by omega
      rw [if_pos (hocc start le_rfl hlt)]
      exact ih (start + 1) target (by omega) (by omega)
        (fun j hj1 hj2 => hocc j (by omega) hj2) hfree

theorem resolveLoop_free (fs : FS) (dir : FPath) (base ext : Name) :
    ∀ (fuel start : Nat),
      (∃ j, start ≤ j ∧ j < start + fuel ∧
        fs.pathExists (dir ++ [candName base ext j]) = false) →
      fs.pathExists (dir ++ [resolveLoop fs dir base ext fuel start]) = false := by
  intro fuel
  induction fuel with
  | zero =>
    rintro start ⟨j, h1, h2, _⟩
    omega
  | succ fuel ih =>
    rintro start ⟨j, h1, h2, hj⟩
    rw [resolveLoop]
    by_cases h : fs.pathExists (dir ++ [candName base ext start]) = true
    · rw [if_pos h]
      apply ih (start + 1)
      refine ⟨j, ?_, by omega, hj⟩
      rcases Nat.eq_or_lt_of_le h1 with rfl | hlt
      · rw [hj] at h; cases h
      · omega
    · rw [if_neg h]
      simpa using h

theorem resolveDest_exists_free (fs : FS) (dir : FPath) (base ext : Name) :
    ∃ j, 1 ≤ j ∧ j < 1 + resolveFuel fs ∧
      fs.pathExists (dir ++ [candName base ext j]) = false := by
  refine ⟨resolveFuel fs, ?_, by omega, ?_⟩
  · rw [resolveFuel]
    exact Nat.one_le_pow _ _ (by norm_num)
  · cases hb : fs.pathExists (dir ++ [candName base ext (resolveFuel fs)]) with
    | false => rfl
    | true =>
      exfalso
      have hle := pathExists_name_le fs dir _ hb
      have hdig : fs.charSize + 1 ≤ (natDigits (resolveFuel fs)).length :=
        natDigits_len fs.charSize (resolveFuel fs) (by rw [resolveFuel])
      have hcand := candName_length base ext (resolveFuel fs)
      omega

/-- The resolver never returns a path that exists at call time. -/
theorem resolveDest_free (fs : FS) (dir : FPath) (n : Name) :
    fs.pathExists (resolveDest fs dir n) = false := by
  rw [resolveDest]
  by_cases h : fs.pathExists (dir ++ [n]) = true
  · rw [if_pos h]
    exact resolveLoop_free fs dir _ _ (resolveFuel fs) 1
      (resolveDest_exists_free fs dir _ _)
  · rw [if_neg h]
    simpa using h

theorem resolveDest_shape (fs : FS) (dir : FPath) (n : Name) :
    ∃ nm, resolveDest fs dir n = dir ++ [nm] := by
  rw [resolveDest]
  by_cases h : fs.pathExists (dir ++ [n]) = true
  · rw [if_pos h]
    exact ⟨_, rfl⟩
  · rw [if_neg h]
    exact ⟨n, rfl⟩

/-! ### The resolver scenario: N identically-named files into one bucket -/

theorem append_single_inj {dir : FPath} {a b : Name} (h : dir ++ [a] = dir ++ [b]) :
    a = b := by
  have h1 := List.append_cancel_left h
  injection h1

theorem pface_inj (dir : FPath) (n : Name) :
    ∀ {i j : Nat}, pface dir n i = pface dir n j → i = j := by
  intro i j h
  rw [pface, pface] at h
  by_cases hi : i = 0 <;> by_cases hj : j = 0
  · omega
  · rw [if_pos hi, if_neg hj] at h
    exact absurd (append_single_inj h) (candName_ne_plain n j)
  · rw [if_neg hi, if_pos hj] at h
    exact absurd (append_single_inj h).symm (candName_ne_plain n i)
  · rw [if_neg hi, if_neg hj] at h
    exact candName_inj _ _ (append_single_inj h)

theorem seqState_exists_iff (fs : FS) (dir : FPath) (n : Name) (data : FileData)
    (H1 : ∀ e ∈ fs.files, pstarts dir e.1 = false)
    (H2 : ∀ d ∈ fs.dirs, pstarts dir d = false ∨ d = dir)
    (k : Nat) (nm : Name) :
    (FS.mk (fs.files ++ (List.range k).map (fun j => (pface dir n j, data)))
        fs.dirs fs.history).pathExists (dir ++ [nm]) = true ↔
      ∃ j, j < k ∧ pface dir n j = dir ++ [nm] := by
  constructor
  · intro h
    rw [FS.pathExists, Bool.or_eq_true] at h
    rcases h with h | h
    · rw [FS.fileExists, FS.file?, Option.isSome_map', List.find?_isSome] at h
      obtain ⟨e, he, hpred⟩ := h
      have he1 : e.1 = dir ++ [nm] := of_decide_eq_true hpred
      rcases List.mem_append.1 he with hf | hadd
      · exfalso
        have hfalse := H1 e hf
        have htrue : pstarts dir e.1 = true := by
          rw [he1]
          exact (pstarts_iff dir (dir ++ [nm])).2 ⟨[nm], rfl⟩
        rw [hfalse] at htrue
        cases htrue
      · rw [List.mem_map] at hadd
        obtain ⟨j, hj, hje⟩ := hadd
        rw [List.mem_range] at hj
        refine ⟨j, hj, ?_⟩
        rw [← he1, ← hje]
    · exfalso
      rw [FS.dirExists, Bool.or_eq_true] at h
      rcases h with h | h
      · have : dir ++ [nm] = [] := of_decide_eq_true h
        simp at this
      · rw [List.any_eq_true] at h
        obtain ⟨d, hd, hpred⟩ := h
        have hd1 : d = dir ++ [nm] := of_decide_eq_true hpred
        rcases H2 d hd with hps | hde
        · have htrue : pstarts dir d = true := by
            rw [hd1]
            exact (pstarts_iff dir (dir ++ [nm])).2 ⟨[nm], rfl⟩
          rw [hps] at htrue
          cases htrue
        · rw [hde] at hd1
          have := congrArg List.length hd1
          simp at this
  · rintro ⟨j, hj, hje⟩
    rw [FS.pathExists, Bool.or_eq_true]
    left
    rw [FS.fileExists, FS.file?, Option.isSome_map', List.find?_isSome]
    refine ⟨(pface dir n j, data), ?_, by simp [hje]⟩
    exact List.mem_append_right _ (List.mem_map_of_mem _ (List.mem_range.2 hj))

theorem seqState_fuel (fs : FS) (dir : FPath) (n : Name) (data : FileData) (k : Nat) :
    k ≤ resolveFuel (FS.mk (fs.files ++ (List.range k).map (fun j => (pface dir n j, data)))
      fs.dirs fs.history) := by
  have hterm : ∀ j : Nat, 1 ≤ j → 1 ≤ pathChars (pface dir n j) := by
    intro j hj
    rw [pface, if_neg (by omega)]
    have h1 : pathChars (dir ++ [candName (pathStem n) (pathSuffix n) j]) =
        pathChars dir + (candName (pathStem n) (pathSuffix n) j).length := by
      simp [pathChars]
    have h2 := candName_length (pathStem n) (pathSuffix n) j
    omega
  have hsum : ∀ m : Nat, m - 1 ≤ ((List.range m).map (fun j => pathChars (pface dir n j))).sum := by
    intro m
    induction m with
    | zero => simp
    | succ m ih =>
      rw [List.range_succ, List.map_append, List.sum_append]
      by_cases hm : m = 0
      · subst hm; simp
      · have := hterm m (by omega)
        simp only [List.map_cons, List.map_nil, List.sum_cons, List.sum_nil]
        omega
  have hcs : (FS.mk (fs.files ++ (List.range k).map (fun j => (pface dir n j, data)))
      fs.dirs fs.history).charSize =
      fs.charSize + ((List.range k).map (fun j => pathChars (pface dir n j))).sum := by
    rw [FS.charSize, FS.charSize]
    simp only [List.map_append, List.sum_append, List.map_map]
    have : ((List.range k).map ((fun e => pathChars e.1) ∘ fun j => (pface dir n j, data))) =
        (List.range k).map (fun j => pathChars (pface dir n j)) := by
      apply List.map_congr_left
      intro j _
      rfl
    rw [this]
    omega
  rw [resolveFuel, hcs]
  have h1 := hsum k
  have h2 := Nat.lt_pow_self (a := 10) (by norm_num)
      (fs.charSize + ((List.range k).map (fun j => pathChars (pface dir n j))).sum)
  omega

theorem seqState_resolve (fs : FS) (dir : FPath) (n : Name) (data : FileData)
    (H1 : ∀ e ∈ fs.files, pstarts dir e.1 = false)
    (H2 : ∀ d ∈ fs.dirs, pstarts dir d = false ∨ d = dir)
    (k : Nat) :
    resolveDest (FS.mk (fs.files ++ (List.range k).map (fun j => (pface dir n j, data)))
        fs.dirs fs.history) dir n = pface dir n k := by
  cases k with
  | zero =>
    rw [resolveDest, if_neg]
    · rw [pface, if_pos rfl]
    · intro h
      obtain ⟨j, hj, _⟩ := (seqState_exists_iff fs dir n data H1 H2 0 n).1 h
      omega
  | succ k =>
    rw [resolveDest, if_pos]
    · rw [pface, if_neg (Nat.succ_ne_zero k)]
      suffices hsuf : resolveLoop (FS.mk (fs.files ++
          (List.range (k + 1)).map (fun j => (pface dir n j, data))) fs.dirs fs.history)
          dir (pathStem n) (pathSuffix n)
          (resolveFuel (FS.mk (fs.files ++
            (List.range (k + 1)).map (fun j => (pface dir n j, data))) fs.dirs fs.history)) 1 =
          candName (pathStem n) (pathSuffix n) (k + 1) by
        rw [hsuf]
      apply resolveLoop_first
      · omega
      · have := seqState_fuel fs dir n data (k + 1)
        omega
      · intro j hj1 hj2
        apply (seqState_exists_iff fs dir n data H1 H2 (k + 1) _).2
        exact ⟨j, hj2, by rw [pface, if_neg (by omega)]⟩
      · cases hb : (FS.mk (fs.files ++ (List.range (k + 1)).map
            (fun j => (pface dir n j, data))) fs.dirs fs.history).pathExists
            (dir ++ [candName (pathStem n) (pathSuffix n) (k + 1)]) with
        | false => rfl
        | true =>
          exfalso
          obtain ⟨j, hj, hje⟩ :=
            (seqState_exists_iff fs dir n data H1 H2 (k + 1) _).1 hb
          by_cases hj0 : j = 0
          · subst hj0
            rw [pface, if_pos rfl] at hje
            exact candName_ne_plain n (k + 1) (append_single_inj hje)
          · rw [pface, if_neg hj0] at hje
            have := candName_inj (pathStem n) (pathSuffix n) (append_single_inj hje)
            omega
    · apply (seqState_exists_iff fs dir n data H1 H2 (k + 1) n).2
      exact ⟨0, by omega, by rw [pface, if_pos rfl]⟩

theorem resolveSeq_spec (fs : FS) (dir : FPath) (n : Name) (data : FileData)
    (H1 : ∀ e ∈ fs.files, pstarts dir e.1 = false)
    (H2 : ∀ d ∈ fs.dirs, pstarts dir d = false ∨ d = dir) :
    ∀ k, resolveSeq fs dir n data k =
      ((List.range k).map (pface dir n),
       FS.mk (fs.files ++ (List.range k).map (fun j => (pface dir n j, data)))
         fs.dirs fs.history) := by
  intro k
  induction k with
  | zero => simp [resolveSeq]
  | succ k ih =>
    rw [resolveSeq, ih]
    simp only []
    rw [seqState_resolve fs dir n data H1 H2 k]
    rw [List.range_succ, List.map_append, List.map_append]
    simp [List.append_assoc]

/-! ### C6: the destination resolver contract -/

/-- C6: resolving N identically-named files into one initially-unclaimed
bucket produces N pairwise-distinct paths: the first keeps the plain name and
the i-th (i ≥ 1) carries the numeric suffix `_i`, appended to the stem in
call order with the desired name's extension reattached verbatim behind it;
and no resolved path exists at its call time. -/
theorem C6_resolver (fs : FS) (dir : FPath) (n : Name) (data : FileData) (N : Nat)
    (H1 : ∀ e ∈ fs.files, pstarts dir e.1 = false)
    (H2 : ∀ d ∈ fs.dirs, pstarts dir d = false ∨ d = dir) :
    (resolveSeq fs dir n data N).1.length = N ∧
    (∀ i, i < N → (resolveSeq fs dir n data N).1[i]? = some (pface dir n i)) ∧
    (resolveSeq fs dir n data N).1.Nodup ∧
    (∀ i, i < N →
      ((resolveSeq fs dir n data i).2).pathExists (pface dir n i) = false) ∧
    pface dir n 0 = dir ++ [n] ∧
    (∀ i, 1 ≤ i →
      pface dir n i = dir ++ [pathStem n ++ '_' :: (natDigits i ++ pathSuffix n)]) := by
  have hspec := resolveSeq_spec fs dir n data H1 H2
  refine ⟨?_, ?_, ?_, ?_, ?_, ?_⟩
  · rw [hspec N]
    simp
  · intro i hi
    rw [hspec N]
    simp only [List.getElem?_map, List.getElem?_range hi, Option.map_some']
  · rw [hspec N]
    exact (List.nodup_range N).map (fun i j h => pface_inj dir n h)
  · intro i hi
    have hfree := resolveDest_free ((resolveSeq fs dir n data i).2) dir n
    simp only [hspec i] at hfree ⊢
    rw [seqState_resolve fs dir n data H1 H2 i] at hfree
    exact hfree
  · rw [pface, if_pos rfl]
  · intro i hi
    rw [pface, if_neg (by omega), candName]

/-- Witness for `C6_resolver`. -/
theorem C6_resolver_witness :
    ((resolveSeq ⟨[], [["B".toList]], none⟩ ["B".toList] "r.txt".toList
        ⟨[], 0, 0, 0⟩ 3).1).length = 3 :=
  (C6_resolver ⟨[], [["B".toList]], none⟩ ["B".toList] "r.txt".toList
    ⟨[], 0, 0, 0⟩ 3 (by decide) (by decide)).1

/-! ### The cleanup phase of undo -/

theorem any_filter_of {α : Type} (l : List α) (q c : α → Bool)
    (h : ∀ x ∈ l, c x = true → q x = true) :
    (l.filter q).any c = l.any c := by
  cases hb : l.any c with
  | true =>
    obtain ⟨x, hx, hcx⟩ := List.any_eq_true.1 hb
    exact List.any_eq_true.2 ⟨x, List.mem_filter.2 ⟨hx, h x hx hcx⟩, hcx⟩
  | false =>
    rw [List.any_eq_false] at hb
    rw [List.any_eq_false]
    intro x hx
    exact hb x (List.mem_of_mem_filter hx)

theorem hasChild_filter (fs : FS) (q : FPath → Bool) (d : FPath) (hd : d.length = 1)
    (hq : ∀ x, q x = false → x.length = 1) :
    (FS.mk fs.files (fs.dirs.filter q) fs.history).hasChild d = fs.hasChild d := by
  rw [FS.hasChild, FS.hasChild]
  have h := any_filter_of fs.dirs q
    (fun x => decide (x.length = d.length + 1) && pstarts d x) ?_
  · rw [h]
  · intro x _ hcx
    cases hqx : q x with
    | true => rfl
    | false =>
      exfalso
      rw [Bool.and_eq_true] at hcx
      have hlen : x.length = d.length + 1 := of_decide_eq_true hcx.1
      have := hq x hqx
      omega

theorem cleanup_go (fs : FS) :
    ∀ (S : List FPath) (q : FPath → Bool),
      (∀ d ∈ S, d.length = 1) →
      (∀ x, q x = false → x.length = 1) →
      S.foldl (fun acc d => if acc.dirExists d && !acc.hasChild d then acc.rmdir d else acc)
          (FS.mk fs.files (fs.dirs.filter q) fs.history) =
        FS.mk fs.files
          (fs.dirs.filter (fun x => q x && (fs.hasChild x || !(decide (x ∈ S)))))
          fs.history := by
  intro S
  induction S with
  | nil =>
    intro q _ _
    rw [List.foldl_nil]
    congr 1
    apply List.filter_congr
    intro x _
    simp
  | cons d S' ih =>
    intro q hS hq
    have hd : d.length = 1 := hS d (List.mem_cons_self _ _)
    have hch := hasChild_filter fs q d hd hq
    have hde : ((fs.dirs.filter q).any (fun x => decide (x = d)) = true) ↔
        (d ∈ fs.dirs ∧ q d = true) := by
      constructor
      · intro h
        obtain ⟨x, hx, hxd⟩ := List.any_eq_true.1 h
        have : x = d := of_decide_eq_true hxd
        subst this
        exact ⟨List.mem_of_mem_filter hx, (List.mem_filter.1 hx).2⟩
      · rintro ⟨h1, h2⟩
        exact List.any_eq_true.2 ⟨d, List.mem_filter.2 ⟨h1, h2⟩, by simp⟩
    rw [List.foldl_cons]
    by_cases hchd : fs.hasChild d = true
    · have hcond : ((FS.mk fs.files (fs.dirs.filter q) fs.history).dirExists d &&
          !(FS.mk fs.files (fs.dirs.filter q) fs.history).hasChild d) = false := by
        rw [hch, hchd]
        simp
      rw [hcond]
      simp only [Bool.false_eq_true, if_false]
      rw [ih q (fun x hx => hS x (List.mem_cons_of_mem _ hx)) hq]
      congr 1
      apply List.filter_congr
      intro x _
      by_cases hxd : x = d
      · subst hxd
        rw [hchd]
        simp
      · simp [List.mem_cons, hxd]
    · have hchd' : fs.hasChild d = false := by
        cases hb : fs.hasChild d with
        | false => rfl
        | true => exact absurd hb hchd
      by_cases hmem : d ∈ fs.dirs ∧ q d = true
      · have hcond : ((FS.mk fs.files (fs.dirs.filter q) fs.history).dirExists d &&
            !(FS.mk fs.files (fs.dirs.filter q) fs.history).hasChild d) = true := by
          rw [hch, hchd']
          rw [FS.dirExists]
          have : decide (d = ([] : FPath)) = false := by
            cases d with
            | nil => simp at hd
            | cons a l => simp
          rw [this, hde.2 hmem]
          simp
        rw [hcond]
        simp only [if_true]
        rw [FS.rmdir]
        simp only []
        rw [List.filter_filter]
        rw [ih (fun x => decide (x ≠ d) && q x)
          (fun x hx => hS x (List.mem_cons_of_mem _ hx)) ?_]
        · congr 1
          apply List.filter_congr
          intro x hx
          by_cases hxd : x = d
          · subst hxd
            simp [hchd']
          · simp [List.mem_cons, hxd]
        · intro x hx
          rw [Bool.and_eq_false_iff] at hx
          rcases hx with hx | hx
          · have : x = d := by
              cases hb : decide (x ≠ d) with
              | true => rw [hb] at hx; cases hx
              | false => simpa using hb
            rw [this]
            exact hd
          · exact hq x hx
      · have hcond : ((FS.mk fs.files (fs.dirs.filter q) fs.history).dirExists d &&
            !(FS.mk fs.files (fs.dirs.filter q) fs.history).hasChild d) = false := by
          rw [FS.dirExists]
          have h0 : decide (d = ([] : FPath)) = false := by
            cases d with
            | nil => simp at hd
            | cons a l => simp
          rw [h0]
          have h1 : (fs.dirs.filter q).any (fun x => decide (x = d)) = false := by
            cases hb : (fs.dirs.filter q).any (fun x => decide (x = d)) with
            | false => rfl
            | true => exact absurd (hde.1 hb) hmem
          rw [h1]
          simp
        rw [hcond]
        simp only [Bool.false_eq_true, if_false]
        rw [ih q (fun x hx => hS x (List.mem_cons_of_mem _ hx)) hq]
        congr 1
        apply List.filter_congr
        intro x hx
        by_cases hxd : x = d
        · subst hxd
          have : q x = false := by
            cases hb : q x with
            | false => rfl
            | true => exact absurd ⟨hx, hb⟩ hmem
          rw [this]
          simp
        · simp [List.mem_cons, hxd]

theorem removeEmptyDirs_spec (fs : FS) :
    removeEmptyDirs fs =
      FS.mk fs.files
        (fs.dirs.filter (fun x => fs.hasChild x || !(decide (x.length = 1))))
        fs.history := by
  have h0 : (FS.mk fs.files (fs.dirs.filter (fun _ => true)) fs.history) = fs := by
    congr 1
    · apply List.filter_eq_self.2
      intro x _
      rfl
  have hgo := cleanup_go fs (fs.dirs.filter (fun d => decide (d.length = 1))) (fun _ => true)
    (fun d hd => of_decide_eq_true (List.mem_filter.1 hd).2)
    (fun x hx => by cases hx)
  rw [h0] at hgo
  rw [removeEmptyDirs, hgo]
  congr 1
  apply List.filter_congr
  intro x hx
  by_cases hlen : x.length = 1
  · have : decide (x ∈ fs.dirs.filter (fun d => decide (d.length = 1))) = true := by
      rw [decide_eq_true_eq]
      exact List.mem_filter.2 ⟨hx, by simp [hlen]⟩
    rw [this]
    simp [hlen]
  · have : decide (x ∈ fs.dirs.filter (fun d => decide (d.length = 1))) = false := by
      rw [decide_eq_false_iff_not]
      intro hmem
      exact hlen (of_decide_eq_true (List.mem_filter.1 hmem).2)
    rw [this]
    simp [hlen]

/-! ### C10: undo removes every empty direct-child directory -/

/-- C10: after replaying the recorded moves, undo removes exactly those
direct children of the root that are directories with no child at that
moment — the quantification covers directories the tool never created, such
as pre-existing empty directories and hidden ones — while every directory
that still has a child, and every directory deeper than one level, is kept;
the cleanup touches no files, and the persisted log is then deleted. -/
theorem undo_some (fs : FS) (ms : List MoveEntry) (h : fs.history = some ms)
    (hne : ms ≠ []) :
    undo_last_organization fs =
      (FS.mk (removeEmptyDirs (ms.reverse.foldl undoStep fs)).files
        (removeEmptyDirs (ms.reverse.foldl undoStep fs)).dirs none, .done) := by
  rw [undo_last_organization, h]
  simp [hne]

theorem C10_undo_cleanup (fs : FS) (ms : List MoveEntry)
    (h : fs.history = some ms) (hne : ms ≠ []) :
    (undo_last_organization fs).1.files = (ms.reverse.foldl undoStep fs).files ∧
    (undo_last_organization fs).1.history = none ∧
    ∀ d, d ∈ (undo_last_organization fs).1.dirs ↔
      d ∈ (ms.reverse.foldl undoStep fs).dirs ∧
        ((ms.reverse.foldl undoStep fs).hasChild d = true ∨ d.length ≠ 1) := by
  rw [undo_some fs ms h hne]
  simp only [removeEmptyDirs_spec]
  refine ⟨trivial, trivial, ?_⟩
  intro d
  simp only [List.mem_filter]
  constructor
  · rintro ⟨h1, h2⟩
    rw [Bool.or_eq_true] at h2
    refine ⟨h1, ?_⟩
    rcases h2 with h2 | h2
    · exact Or.inl h2
    · right
      intro hlen
      rw [Bool.not_eq_true', decide_eq_false_iff_not] at h2
      exact h2 hlen
  · rintro ⟨h1, h2⟩
    refine ⟨h1, ?_⟩
    rw [Bool.or_eq_true]
    rcases h2 with h2 | h2
    · exact Or.inl h2
    · right
      simp [h2]

/-- Witness for `C10_undo_cleanup`: a pre-existing empty directory `E` the
tool never created is removed by undo. -/
theorem C10_undo_cleanup_witness :
    ["E".toList] ∈ (undo_last_organization
        ⟨[(["A".toList, "f".toList], ⟨[], 0, 0, 0⟩)],
         [["A".toList], ["E".toList], [".h".toList]],
         some [⟨["f".toList], ["A".toList, "f".toList]⟩]⟩).1.dirs ↔
      ["E".toList] ∈ (([⟨["f".toList], ["A".toList, "f".toList]⟩] : List MoveEntry).reverse.foldl
          undoStep
          ⟨[(["A".toList, "f".toList], ⟨[], 0, 0, 0⟩)],
           [["A".toList], ["E".toList], [".h".toList]],
           some [⟨["f".toList], ["A".toList, "f".toList]⟩]⟩).dirs ∧
        ((([⟨["f".toList], ["A".toList, "f".toList]⟩] : List MoveEntry).reverse.foldl
            undoStep
            ⟨[(["A".toList, "f".toList], ⟨[], 0, 0, 0⟩)],
             [["A".toList], ["E".toList], [".h".toList]],
             some [⟨["f".toList], ["A".toList, "f".toList]⟩]⟩).hasChild ["E".toList] = true ∨
          (["E".toList] : FPath).length ≠ 1) :=
  (C10_undo_cleanup
    ⟨[(["A".toList, "f".toList], ⟨[], 0, 0, 0⟩)],
     [["A".toList], ["E".toList], [".h".toList]],
     some [⟨["f".toList], ["A".toList, "f".toList]⟩]⟩
    [⟨["f".toList], ["A".toList, "f".toList]⟩] rfl (by decide)).2.2 ["E".toList]

/-! ### Lookup and move lemmas under well-formedness -/

theorem find?_path_of_mem :
    ∀ (l : List (FPath × FileData)), (l.map Prod.fst).Nodup →
      ∀ e ∈ l, l.find? (fun x => decide (x.1 = e.1)) = some e := by
  intro l
  induction l with
  | nil => intro _ e he; cases he
  | cons a l ih =>
    intro hnd e he
    rw [List.map_cons, List.nodup_cons] at hnd
    rcases List.mem_cons.1 he with rfl | hmem
    · rw [List.find?_cons_of_pos _ (by simp)]
    · rw [List.find?_cons_of_neg, ih hnd.2 e hmem]
      simp only [decide_eq_true_eq]
      intro hae
      exact hnd.1 (by rw [hae]; exact List.mem_map_of_mem Prod.fst hmem)

theorem file?_eq_some_of_mem (fs : FS) (hnd : (fs.files.map Prod.fst).Nodup)
    (e : FPath × FileData) (he : e ∈ fs.files) : fs.file? e.1 = some e.2 := by
  rw [FS.file?, find?_path_of_mem fs.files hnd e he]
  rfl

theorem file?_none_iff (fs : FS) (p : FPath) :
    fs.file? p = none ↔ ∀ e ∈ fs.files, e.1 ≠ p := by
  rw [FS.file?, Option.map_eq_none', List.find?_eq_none]
  constructor
  · intro h e he
    have := h e he
    simpa using this
  · intro h e he
    simp [h e he]

theorem fileExists_false_iff (fs : FS) (p : FPath) :
    fs.fileExists p = false ↔ fs.file? p = none := by
  rw [FS.fileExists]
  cases h : fs.file? p <;> simp

theorem fileExists_true_iff (fs : FS) (p : FPath) :
    fs.fileExists p = true ↔ ∃ d, fs.file? p = some d := by
  rw [FS.fileExists]
  cases h : fs.file? p <;> simp

theorem dirExists_false_of_pathExists_false (fs : FS) (p : FPath)
    (h : fs.pathExists p = false) : fs.dirExists p = false := by
  rw [FS.pathExists, Bool.or_eq_false_iff] at h
  exact h.2

theorem fileExists_false_of_pathExists_false (fs : FS) (p : FPath)
    (h : fs.pathExists p = false) : fs.fileExists p = false := by
  rw [FS.pathExists, Bool.or_eq_false_iff] at h
  exact h.1

theorem not_mem_dirs_of_dirExists_false (fs : FS) (p : FPath)
    (h : fs.dirExists p = false) : p ∉ fs.dirs := by
  intro hmem
  rw [FS.dirExists, Bool.or_eq_false_iff] at h
  have := List.any_eq_false.1 h.2 p hmem
  simp at this

theorem pstarts_self (p : FPath) : pstarts p p = true :=
  (pstarts_iff p p).2 ⟨[], by simp⟩

/-- Under well-formedness, a path holding a regular file is not a prefix of
any other entry (file or directory). -/
theorem FS.WF.file_sub {fs : FS} (hwf : fs.WF) {src : FPath}
    (hsrc : fs.fileExists src = true) :
    (∀ e ∈ fs.files, pstarts src e.1 = true → e.1 = src) ∧
      (∀ d ∈ fs.dirs, pstarts src d = false) := by
  obtain ⟨d0, hd0⟩ := (fileExists_true_iff fs src).1 hsrc
  rw [FS.file?] at hd0
  rw [Option.map_eq_some'] at hd0
  obtain ⟨e0, he0f, he0v⟩ := hd0
  have he0mem : e0 ∈ fs.files := List.mem_of_find?_eq_some he0f
  have he0p := List.find?_some he0f
  simp only [decide_eq_true_eq] at he0p
  have hsrcne : src ≠ [] := he0p ▸ hwf.filesNe e0 he0mem
  have hsrcdir : src ∉ fs.dirs := he0p ▸ hwf.noClash e0 he0mem
  have hslen : 0 < src.length := by
    cases src with
    | nil => exact absurd rfl hsrcne
    | cons a l => simp
  constructor
  · intro e he hps
    obtain ⟨q, hq⟩ := (pstarts_iff src e.1).1 hps
    cases q with
    | nil => rw [hq]; simp
    | cons b bs =>
      exfalso
      have hlen : src.length < e.1.length := by
        rw [hq]
        simp
      have htk : e.1.take src.length = src := by
        rw [hq]
        exact List.take_left src (b :: bs)
      have := hwf.fileAncestors e he src.length hlen hslen
      rw [htk] at this
      exact hsrcdir this
  · intro d hd
    cases hb : pstarts src d with
    | false => rfl
    | true =>
      exfalso
      obtain ⟨q, hq⟩ := (pstarts_iff src d).1 hb
      cases q with
      | nil =>
        rw [List.append_nil] at hq
        exact hsrcdir (hq ▸ hd)
      | cons b bs =>
        have hlen : src.length < d.length := by
          rw [hq]
          simp
        have htk : d.take src.length = src := by
          rw [hq]
          exact List.take_left src (b :: bs)
        have := hwf.dirAncestors d hd src.length hlen hslen
        rw [htk] at this
        exact hsrcdir this

theorem moveList_eq_map (src dst : FPath) :
    ∀ (l : List (FPath × FileData)),
      (∀ e ∈ l, pstarts src e.1 = true → e.1 = src) →
      (∀ e ∈ l, e.1 ≠ dst) →
      l.filterMap (fun e =>
          if pstarts src e.1 then some (reroot src dst e.1, e.2)
          else if e.1 = dst then none else some e) =
        l.map (fun e => if e.1 = src then (dst, e.2) else e) := by
  intro l
  induction l with
  | nil => intro _ _; rfl
  | cons e l ih =>
    intro hsub hdst
    rw [List.filterMap_cons, List.map_cons]
    by_cases hes : e.1 = src
    · have hps : pstarts src e.1 = true := by
        rw [hes]
        exact pstarts_self src
      rw [hps]
      simp only [if_pos hes]
      rw [ih (fun x hx => hsub x (List.mem_cons_of_mem _ hx))
        (fun x hx => hdst x (List.mem_cons_of_mem _ hx))]
      have hrr : reroot src dst e.1 = dst := by
        rw [reroot, hes, List.drop_length, List.append_nil]
      rw [hrr]
      simp
    · have hps : pstarts src e.1 = false := by
        cases hb : pstarts src e.1 with
        | false => rfl
        | true => exact absurd (hsub e (List.mem_cons_self _ _) hb) hes
      rw [hps]
      simp only [Bool.false_eq_true, if_false, if_neg hes,
        if_neg (hdst e (List.mem_cons_self _ _))]
      rw [ih (fun x hx => hsub x (List.mem_cons_of_mem _ hx))
        (fun x hx => hdst x (List.mem_cons_of_mem _ hx))]

theorem moveFind (src dst : FPath) (hne : src ≠ dst) :
    ∀ (l : List (FPath × FileData)), (∀ e ∈ l, e.1 ≠ dst) →
      ((l.map (fun e => if e.1 = src then (dst, e.2) else e)).find?
          (fun e => decide (e.1 = dst)) =
        (l.find? (fun e => decide (e.1 = src))).map (fun e => (dst, e.2))) ∧
      ((l.map (fun e => if e.1 = src then (dst, e.2) else e)).find?
          (fun e => decide (e.1 = src)) = none) ∧
      (∀ p, p ≠ src → p ≠ dst →
        (l.map (fun e => if e.1 = src then (dst, e.2) else e)).find?
          (fun e => decide (e.1 = p)) = l.find? (fun e => decide (e.1 = p))) := by
  intro l
  induction l with
  | nil => intro _; exact ⟨rfl, rfl, fun p _ _ => rfl⟩
  | cons e l ih =>
    intro hdst
    obtain ⟨ih1, ih2, ih3⟩ := ih (fun x hx => hdst x (List.mem_cons_of_mem _ hx))
    rw [List.map_cons]
    by_cases hes : e.1 = src
    · rw [if_pos hes]
      refine ⟨?_, ?_, ?_⟩
      · rw [List.find?_cons_of_pos _ (by simp), List.find?_cons_of_pos _ (by simp [hes])]
        rfl
      · rw [List.find?_cons_of_neg _ (by simp [Ne.symm hne]), ih2]
      · intro p hp1 hp2
        rw [List.find?_cons_of_neg _ (by simp [Ne.symm hp2]),
          List.find?_cons_of_neg _ (by simp [hes, Ne.symm hp1]), ih3 p hp1 hp2]
    · rw [if_neg hes]
      refine ⟨?_, ?_, ?_⟩
      · rw [List.find?_cons_of_neg _ (by simp [hdst e (List.mem_cons_self _ _)]),
          List.find?_cons_of_neg _ (by simp [hes]), ih1]
      · rw [List.find?_cons_of_neg _ (by simp [hes]), ih2]
      · intro p hp1 hp2
        by_cases hep : e.1 = p
        · rw [List.find?_cons_of_pos _ (by simp [hep]),
            List.find?_cons_of_pos _ (by simp [hep])]
        · rw [List.find?_cons_of_neg _ (by simp [hep]),
            List.find?_cons_of_neg _ (by simp [hep]), ih3 p hp1 hp2]

theorem movePath_files_eq (fs : FS) (src dst : FPath)
    (hsub : ∀ e ∈ fs.files, pstarts src e.1 = true → e.1 = src)
    (hdst : ∀ e ∈ fs.files, e.1 ≠ dst) :
    (fs.movePath src dst).files =
      fs.files.map (fun e => if e.1 = src then (dst, e.2) else e) := by
  rw [FS.movePath]
  exact moveList_eq_map src dst fs.files hsub hdst

theorem movePath_dirs_eq (fs : FS) (src dst : FPath)
    (h : ∀ d ∈ fs.dirs, pstarts src d = false) :
    (fs.movePath src dst).dirs = fs.dirs := by
  rw [FS.movePath]
  simp only []
  have : ∀ d ∈ fs.dirs, (if pstarts src d then reroot src dst d else d) = d := by
    intro d hd
    rw [h d hd]
    simp
  calc fs.dirs.map (fun d => if pstarts src d then reroot src dst d else d)
      = fs.dirs.map id := List.map_congr_left this
    _ = fs.dirs := List.map_id fs.dirs

theorem movePath_file?_spec (fs : FS) (src dst : FPath) (hne : src ≠ dst)
    (hsub : ∀ e ∈ fs.files, pstarts src e.1 = true → e.1 = src)
    (hdst : ∀ e ∈ fs.files, e.1 ≠ dst) :
    ((fs.movePath src dst).file? dst = fs.file? src) ∧
    ((fs.movePath src dst).file? src = none) ∧
    (∀ p, p ≠ src → p ≠ dst → (fs.movePath src dst).file? p = fs.file? p) := by
  obtain ⟨h1, h2, h3⟩ := moveFind src dst hne fs.files hdst
  have hfiles := movePath_files_eq fs src dst hsub hdst
  refine ⟨?_, ?_, ?_⟩
  · rw [FS.file?, hfiles, h1, FS.file?]
    cases fs.files.find? (fun e => decide (e.1 = src)) <;> rfl
  · rw [FS.file?, hfiles, h2]
    rfl
  · intro p hp1 hp2
    rw [FS.file?, hfiles, h3 p hp1 hp2, FS.file?]

theorem nodup_map_replace (a b : FPath) :
    ∀ (l : List FPath), l.Nodup → b ∉ l →
      (l.map (fun x => if x = a then b else x)).Nodup := by
  intro l
  induction l with
  | nil => intro _ _; simp
  | cons x l ih =>
    intro hnd hb
    rw [List.nodup_cons] at hnd
    rw [List.mem_cons] at hb
    push_neg at hb
    rw [List.map_cons, List.nodup_cons]
    refine ⟨?_, ih hnd.2 hb.2⟩
    intro hmem
    rw [List.mem_map] at hmem
    obtain ⟨y, hy, hye⟩ := hmem
    by_cases hxa : x = a
    · rw [if_pos hxa] at hye
      by_cases hya : y = a
      · rw [if_pos hya] at hye
        exact hnd.1 (hxa ▸ hya ▸ hy)
      · rw [if_neg hya] at hye
        exact hb.2 (hye ▸ hy)
    · rw [if_neg hxa] at hye
      by_cases hya : y = a
      · rw [if_pos hya] at hye
        exact hb.1 hye
      · rw [if_neg hya] at hye
        exact hnd.1 (hye ▸ hy)

theorem WF_move (fs : FS) (src dst : FPath) (hwf : fs.WF)
    (hsrc : fs.fileExists src = true)
    (hdst : fs.pathExists dst = false) (hdne : dst ≠ [])
    (hanc : ∀ k, k < dst.length → 0 < k → dst.take k ∈ fs.dirs) :
    (fs.movePath src dst).WF := by
  obtain ⟨hsub, hdsub⟩ := hwf.file_sub hsrc
  have hdstf : ∀ e ∈ fs.files, e.1 ≠ dst := by
    have h0 := fileExists_false_of_pathExists_false fs dst hdst
    rw [fileExists_false_iff, file?_none_iff] at h0
    exact h0
  have hdirsne : dst ∉ fs.dirs :=
    not_mem_dirs_of_dirExists_false fs dst (dirExists_false_of_pathExists_false fs dst hdst)
  have hfiles := movePath_files_eq fs src dst hsub hdstf
  have hdirs := movePath_dirs_eq fs src dst hdsub
  have hfst : (fs.movePath src dst).files.map Prod.fst =
      (fs.files.map Prod.fst).map (fun x => if x = src then dst else x) := by
    rw [hfiles, List.map_map, List.map_map]
    apply List.map_congr_left
    intro e _
    by_cases h : e.1 = src <;> simp [h]
  have hdstmap : dst ∉ fs.files.map Prod.fst := by
    intro hmem
    rw [List.mem_map] at hmem
    obtain ⟨e, he, hee⟩ := hmem
    exact hdstf e he hee
  constructor
  · rw [hfst]
    exact nodup_map_replace src dst _ hwf.nodupFiles hdstmap
  · rw [hdirs]
    exact hwf.nodupDirs
  · intro e he
    rw [hfiles] at he
    rw [List.mem_map] at he
    obtain ⟨x, hx, hxe⟩ := he
    by_cases h : x.1 = src
    · rw [if_pos h] at hxe
      rw [← hxe]
      exact hdne
    · rw [if_neg h] at hxe
      rw [← hxe]
      exact hwf.filesNe x hx
  · intro d hd
    rw [hdirs] at hd
    exact hwf.dirsNe d hd
  · intro e he
    rw [hfiles] at he
    rw [hdirs]
    rw [List.mem_map] at he
    obtain ⟨x, hx, hxe⟩ := he
    by_cases h : x.1 = src
    · rw [if_pos h] at hxe
      rw [← hxe]
      exact hdirsne
    · rw [if_neg h] at hxe
      rw [← hxe]
      exact hwf.noClash x hx
  · intro e he k hk1 hk2
    rw [hfiles] at he
    rw [hdirs]
    rw [List.mem_map] at he
    obtain ⟨x, hx, hxe⟩ := he
    by_cases h : x.1 = src
    · rw [if_pos h] at hxe
      rw [← hxe] at hk1 ⊢
      exact hanc k hk1 hk2
    · rw [if_neg h] at hxe
      rw [← hxe] at hk1 ⊢
      exact hwf.fileAncestors x hx k hk1 hk2
  · intro d hd k hk1 hk2
    rw [hdirs] at hd ⊢
    exact hwf.dirAncestors d hd k hk1 hk2

theorem mkdir1_ok (fs : FS) (p : FPath) (fs' : FS) (h : fs.mkdir1 p = .ok fs') :
    fs.fileExists p = false ∧
      ((fs.dirExists p = true ∧ fs' = fs) ∨
        (fs.dirExists p = false ∧ fs' = { fs with dirs := fs.dirs ++ [p] })) := by
  rw [FS.mkdir1] at h
  by_cases h1 : fs.fileExists p = true
  · rw [if_pos h1] at h
    cases h
  · have h1' : fs.fileExists p = false := by
      cases hb : fs.fileExists p with
      | false => rfl
      | true => exact absurd hb h1
    rw [h1'] at h
    simp only [Bool.false_eq_true, if_false] at h
    refine ⟨h1', ?_⟩
    by_cases h2 : fs.dirExists p = true
    · rw [if_pos h2] at h
      cases h
      exact Or.inl ⟨h2, rfl⟩
    · have h2' : fs.dirExists p = false := by
        cases hb : fs.dirExists p with
        | false => rfl
        | true => exact absurd hb h2
      rw [h2'] at h
      simp only [Bool.false_eq_true, if_false] at h
      cases h
      exact Or.inr ⟨h2', rfl⟩

theorem WF_mkdir1 (fs : FS) (p : FPath) (fs' : FS) (hwf : fs.WF)
    (h : fs.mkdir1 p = .ok fs') (hne : p ≠ [])
    (hanc : ∀ k, k < p.length → 0 < k → p.take k ∈ fs.dirs) : fs'.WF := by
  obtain ⟨hfe, hcase⟩ := mkdir1_ok fs p fs' h
  rcases hcase with ⟨_, rfl⟩ | ⟨hde, rfl⟩
  · exact hwf
  · have hnotmem : p ∉ fs.dirs := not_mem_dirs_of_dirExists_false fs p hde
    have hnof : ∀ e ∈ fs.files, e.1 ≠ p := by
      rw [fileExists_false_iff, file?_none_iff] at hfe
      exact hfe
    constructor
    · exact hwf.nodupFiles
    · rw [List.nodup_append]
      exact ⟨hwf.nodupDirs, List.nodup_singleton p,
        fun d hd hdp => hnotmem ((List.mem_singleton.1 hdp) ▸ hd)⟩
    · exact hwf.filesNe
    · intro d hd
      rcases List.mem_append.1 hd with h1 | h1
      · exact hwf.dirsNe d h1
      · rw [List.mem_singleton.1 h1]
        exact hne
    · intro e he hmem
      rcases List.mem_append.1 hmem with h1 | h1
      · exact hwf.noClash e he h1
      · exact hnof e he (List.mem_singleton.1 h1)
    · intro e he k hk1 hk2
      exact List.mem_append_left _ (hwf.fileAncestors e he k hk1 hk2)
    · intro d hd k hk1 hk2
      rcases List.mem_append.1 hd with h1 | h1
      · exact List.mem_append_left _ (hwf.dirAncestors d h1 k hk1 hk2)
      · rw [List.mem_singleton.1 h1] at hk1 ⊢
        exact List.mem_append_left _ (hanc k hk1 hk2)

theorem mkdir1_frame (fs : FS) (p : FPath) (fs' : FS) (h : fs.mkdir1 p = .ok fs') :
    fs'.files = fs.files ∧ fs'.history = fs.history ∧
      (∀ d ∈ fs.dirs, d ∈ fs'.dirs) ∧ p ∈ fs'.dirs ∨
      (p = [] ∧ fs' = fs) := by
  obtain ⟨hfe, hcase⟩ := mkdir1_ok fs p fs' h
  rcases hcase with ⟨hde, rfl⟩ | ⟨hde, rfl⟩
  · by_cases hp : p = []
    · exact Or.inr ⟨hp, rfl⟩
    · left
      refine ⟨rfl, rfl, fun d hd => hd, ?_⟩
      rw [FS.dirExists, Bool.or_eq_true] at hde
      rcases hde with h1 | h1
      · exact absurd (of_decide_eq_true h1) hp
      · obtain ⟨d, hd, hdp⟩ := List.any_eq_true.1 h1
        exact (of_decide_eq_true hdp) ▸ hd
  · left
    exact ⟨rfl, rfl, fun d hd => List.mem_append_left _ hd,
      List.mem_append_right _ (List.mem_singleton.2 rfl)⟩

theorem shMove_eq_movePath (fs : FS) (src dst : FPath)
    (h : fs.dirExists dst = false) : fs.shMove src dst = fs.movePath src dst := by
  rw [FS.shMove, h]
  simp

theorem mkdirP_nil (fs : FS) : fs.mkdirP [] = .ok fs := rfl

theorem parentD_len1 (p : FPath) (h : p.length = 1) : parentD p = [] := by
  cases p with
  | nil => simp at h
  | cons a l =>
    cases l with
    | nil => rfl
    | cons b l' => simp at h

theorem undoStep_eq (fs : FS) (m : MoveEntry) (h1 : fs.pathExists m.dst = true)
    (h2 : m.src.length = 1) : undoStep fs m = fs.shMove m.dst m.src := by
  rw [undoStep, if_pos h1, parentD_len1 m.src h2, mkdirP_nil]

theorem file?_sethist (fs : FS) (h : Option (List MoveEntry)) (p : FPath) :
    (FS.mk fs.files fs.dirs h).file? p = fs.file? p := rfl

theorem WF_sethist (fs : FS) (hwf : fs.WF) (h : Option (List MoveEntry)) :
    (FS.mk fs.files fs.dirs h).WF := by
  constructor
  · exact hwf.nodupFiles
  · exact hwf.nodupDirs
  · exact hwf.filesNe
  · exact hwf.dirsNe
  · exact hwf.noClash
  · exact hwf.fileAncestors
  · exact hwf.dirAncestors

/-! ### The per-category move loop preserves the run invariant -/

theorem movePath_history (fs : FS) (src dst : FPath) :
    (fs.movePath src dst).history = fs.history := rfl

theorem runFiles_inv (fs0 : FS) (cat : Name) :
    ∀ (rs : List FileRecord) (st : OrgState),
      RunInv fs0 st →
      [cat] ∈ st.fs.dirs →
      (∀ r ∈ rs, r.path.length = 1) →
      (rs.map FileRecord.path).Nodup →
      (∀ r ∈ rs, st.fs.file? r.path = fs0.file? r.path ∧ fs0.file? r.path ≠ none) →
      (∀ r ∈ rs, ∀ m ∈ st.moves, r.path ≠ m.src) →
      RunInv fs0 (runFiles [cat] st rs) ∧
      (runFiles [cat] st rs).fs.dirs = st.fs.dirs ∧
      (∀ p : FPath, p.length = 1 → (∀ r ∈ rs, p ≠ r.path) →
        (runFiles [cat] st rs).fs.file? p = st.fs.file? p) ∧
      (∀ m ∈ (runFiles [cat] st rs).moves,
        m ∈ st.moves ∨ ∃ r ∈ rs, m.src = r.path) := by
  intro rs
  induction rs with
  | nil =>
    intro st hinv hcat _ _ _ _
    rw [runFiles]
    exact ⟨hinv, rfl, fun p _ _ => rfl, fun m hm => Or.inl hm⟩
  | cons r rs ih =>
    intro st hinv hcat hlen hnd hfresh hnm
    have hfx : st.fs.fileExists r.path = true := by
      rw [fileExists_true_iff]
      obtain ⟨h1, h2⟩ := hfresh r (List.mem_cons_self _ _)
      cases hval : fs0.file? r.path with
      | none => exact absurd hval h2
      | some d => exact ⟨d, by rw [h1, hval]⟩
    have hrlen : r.path.length = 1 := hlen r (List.mem_cons_self _ _)
    set dest := resolveDest st.fs [cat] (lastNameD r.path) with hdestdef
    have hstep : moveOne [cat] st r =
        ⟨st.fs.shMove r.path dest, st.moves ++ [⟨r.path, dest⟩], st.movedCount + 1⟩ := by
      rw [moveOne, if_pos hfx]
    have hfree : st.fs.pathExists dest = false := resolveDest_free st.fs [cat] _
    obtain ⟨nm, hnm2⟩ := resolveDest_shape st.fs [cat] (lastNameD r.path)
    have hdlen : dest.length = 2 := by
      rw [hdestdef, hnm2]
      rfl
    have hdne : dest ≠ [] := by
      intro h
      rw [h] at hdlen
      simp at hdlen
    have hdanc : ∀ k, k < dest.length → 0 < k → dest.take k ∈ st.fs.dirs := by
      intro k hk1 hk2
      have hk : k = 1 := by omega
      subst hk
      have : dest.take 1 = [cat] := by
        rw [hdestdef, hnm2]
        rfl
      rw [this]
      exact hcat
    have hsd : r.path ≠ dest := by
      intro h
      rw [h] at hrlen
      omega
    obtain ⟨hsub, hdsub⟩ := hinv.wf.file_sub hfx
    have hdstf : ∀ e ∈ st.fs.files, e.1 ≠ dest := by
      have h0 := fileExists_false_of_pathExists_false st.fs dest hfree
      rw [fileExists_false_iff, file?_none_iff] at h0
      exact h0
    have hdfile : st.fs.file? dest = none := by
      rw [file?_none_iff]
      exact hdstf
    have hsh := shMove_eq_movePath st.fs r.path dest
      (dirExists_false_of_pathExists_false st.fs dest hfree)
    obtain ⟨hspec1, hspec2, hspec3⟩ :=
      movePath_file?_spec st.fs r.path dest hsd hsub hdstf
    have hdirs' : (st.fs.movePath r.path dest).dirs = st.fs.dirs :=
      movePath_dirs_eq st.fs r.path dest hdsub
    have hwf' : (st.fs.movePath r.path dest).WF :=
      WF_move st.fs r.path dest hinv.wf hfx hfree hdne hdanc
    set st' : OrgState :=
      ⟨st.fs.movePath r.path dest, st.moves ++ [⟨r.path, dest⟩], st.movedCount + 1⟩
      with hsteq
    have hinv' : RunInv fs0 st' := by
      constructor
      · exact hwf'
      · rw [hsteq]
        simp only []
        rw [movePath_history]
        exact hinv.hist
      · intro m hm
        rcases List.mem_append.1 hm with h1 | h1
        · exact hinv.srcLen m h1
        · rw [List.mem_singleton.1 h1]
          exact hrlen
      · intro m hm
        rcases List.mem_append.1 hm with h1 | h1
        · exact hinv.dstLen m h1
        · rw [List.mem_singleton.1 h1]
          exact hdlen
      · rw [hsteq]
        simp only [List.map_append]
        rw [List.nodup_append]
        refine ⟨hinv.srcNd, by simp, ?_⟩
        intro x hx hx2
        simp only [List.map_cons, List.map_nil, List.mem_singleton] at hx2
        rw [List.mem_map] at hx
        obtain ⟨m, hm, hme⟩ := hx
        exact hnm r (List.mem_cons_self _ _) m hm (by rw [hx2] at hme; exact hme.symm)
      · rw [hsteq]
        simp only [List.map_append]
        rw [List.nodup_append]
        refine ⟨hinv.dstNd, by simp, ?_⟩
        intro x hx hx2
        simp only [List.map_cons, List.map_nil, List.mem_singleton] at hx2
        rw [List.mem_map] at hx
        obtain ⟨m, hm, hme⟩ := hx
        have hval := hinv.dstHolds m hm
        have hne := hinv.srcSome m hm
        rw [hx2] at hme
        rw [← hme] at hdfile
        rw [hdfile] at hval
        exact hne hval.symm
      · intro m hm
        rcases List.mem_append.1 hm with h1 | h1
        · have hd1 : m.dst ≠ r.path := by
            intro h
            have := hinv.dstLen m h1
            rw [h, hrlen] at this
            omega
          have hd2 : m.dst ≠ dest := by
            intro h
            have hval := hinv.dstHolds m h1
            rw [h, hdfile] at hval
            exact hinv.srcSome m h1 hval.symm
          rw [hsteq]
          simp only []
          rw [hspec3 m.dst hd1 hd2]
          exact hinv.dstHolds m h1
        · rw [List.mem_singleton.1 h1]
          simp only []
          rw [hspec1]
          exact (hfresh r (List.mem_cons_self _ _)).1
      · intro m hm
        rcases List.mem_append.1 hm with h1 | h1
        · exact hinv.srcSome m h1
        · rw [List.mem_singleton.1 h1]
          exact (hfresh r (List.mem_cons_self _ _)).2
      · intro m hm
        rcases List.mem_append.1 hm with h1 | h1
        · have hs1 : m.src ≠ r.path :=
            fun h => hnm r (List.mem_cons_self _ _) m h1 h.symm
          have hs2 : m.src ≠ dest := by
            intro h
            have := hinv.srcLen m h1
            rw [h, hdlen] at this
            omega
          rw [hsteq]
          simp only []
          rw [hspec3 m.src hs1 hs2]
          exact hinv.srcVac m h1
        · rw [List.mem_singleton.1 h1]
          simp only []
          rw [hspec2]
    have hndtail : (rs.map FileRecord.path).Nodup := by
      rw [List.map_cons, List.nodup_cons] at hnd
      exact hnd.2
    have hrnotin : ∀ r' ∈ rs, r'.path ≠ r.path := by
      intro r' hr' h
      rw [List.map_cons, List.nodup_cons] at hnd
      exact hnd.1 (h ▸ List.mem_map_of_mem FileRecord.path hr')
    have hfresh' : ∀ r' ∈ rs, st'.fs.file? r'.path = fs0.file? r'.path ∧
        fs0.file? r'.path ≠ none := by
      intro r' hr'
      have h1 : r'.path ≠ r.path := hrnotin r' hr'
      have h2 : r'.path ≠ dest := by
        intro h
        have := hlen r' (List.mem_cons_of_mem _ hr')
        rw [h, hdlen] at this
        omega
      rw [hsteq]
      simp only []
      rw [hspec3 r'.path h1 h2]
      exact hfresh r' (List.mem_cons_of_mem _ hr')
    have hnm' : ∀ r' ∈ rs, ∀ m ∈ st'.moves, r'.path ≠ m.src := by
      intro r' hr' m hm
      rcases List.mem_append.1 hm with h1 | h1
      · exact hnm r' (List.mem_cons_of_mem _ hr') m h1
      · rw [List.mem_singleton.1 h1]
        exact hrnotin r' hr'
    have hcat' : [cat] ∈ st'.fs.dirs := by
      rw [hsteq]
      simp only []
      rw [hdirs']
      exact hcat
    obtain ⟨c1, c2, c3, c4⟩ := ih st' hinv' hcat'
      (fun r' hr' => hlen r' (List.mem_cons_of_mem _ hr')) hndtail hfresh' hnm'
    have hrun : runFiles [cat] st (r :: rs) = runFiles [cat] st' rs := by
      rw [runFiles, hstep, hsh]
    refine ⟨?_, ?_, ?_, ?_⟩
    · rw [hrun]
      exact c1
    · rw [hrun, c2, hsteq]
      simp only []
      exact hdirs'
    · intro p hp1 hp2
      rw [hrun, c3 p hp1 (fun r' hr' => hp2 r' (List.mem_cons_of_mem _ hr'))]
      rw [hsteq]
      simp only []
      rw [hspec3 p (hp2 r (List.mem_cons_self _ _)) (by
        intro h
        rw [h, hdlen] at hp1
        omega)]
    · intro m hm
      rw [hrun] at hm
      rcases c4 m hm with h1 | ⟨r', hr', he⟩
      · rcases List.mem_append.1 h1 with h2 | h2
        · exact Or.inl h2
        · right
          refine ⟨r, List.mem_cons_self _ _, ?_⟩
          rw [List.mem_singleton.1 h2]
      · exact Or.inr ⟨r', List.mem_cons_of_mem _ hr', he⟩

theorem file?_congr_files (fs1 fs2 : FS) (h : fs1.files = fs2.files) (p : FPath) :
    fs1.file? p = fs2.file? p := by
  rw [FS.file?, FS.file?, h]

theorem runGroups_inv (fs0 : FS) :
    ∀ (gs : List (Name × List FileRecord)) (st st' : OrgState),
      runGroups st gs = .ok st' →
      RunInv fs0 st →
      (∀ g ∈ gs, ∀ r ∈ g.2, r.path.length = 1) →
      (((gs.map Prod.snd).flatten).map FileRecord.path).Nodup →
      (∀ g ∈ gs, ∀ r ∈ g.2, st.fs.file? r.path = fs0.file? r.path ∧
        fs0.file? r.path ≠ none) →
      (∀ g ∈ gs, ∀ r ∈ g.2, ∀ m ∈ st.moves, r.path ≠ m.src) →
      RunInv fs0 st' := by
  intro gs
  induction gs with
  | nil =>
    intro st st' hrun hinv _ _ _ _
    rw [runGroups] at hrun
    cases hrun
    exact hinv
  | cons g gs ih =>
    intro st st' hrun hinv hlen hnd hfresh hnmv
    obtain ⟨cat, rs⟩ := g
    rw [runGroups] at hrun
    cases hmk : st.fs.mkdir1 [cat] with
    | error e => rw [hmk] at hrun; cases hrun
    | ok fs1 =>
      rw [hmk] at hrun
      have hframe := mkdir1_frame st.fs [cat] fs1 hmk
      rcases hframe with ⟨hfiles, hhist, hdmono, hcat⟩ | ⟨habs, _⟩
      · have hwf1 : fs1.WF := WF_mkdir1 st.fs [cat] fs1 hinv.wf hmk (by simp)
          (by intro k hk1 hk2; simp at hk1; omega)
        have hfq : ∀ p, fs1.file? p = st.fs.file? p :=
          file?_congr_files fs1 st.fs hfiles
        have hinvMid : RunInv fs0 ⟨fs1, st.moves, st.movedCount⟩ := by
          constructor
          · exact hwf1
          · rw [hhist]
            exact hinv.hist
          · exact hinv.srcLen
          · exact hinv.dstLen
          · exact hinv.srcNd
          · exact hinv.dstNd
          · intro m hm
            rw [hfq]
            exact hinv.dstHolds m hm
          · exact hinv.srcSome
          · intro m hm
            rw [hfq]
            exact hinv.srcVac m hm
        have hndsplit : ((rs.map FileRecord.path).Nodup ∧
            (((gs.map Prod.snd).flatten).map FileRecord.path).Nodup ∧
            ∀ p, p ∈ rs.map FileRecord.path →
              p ∉ ((gs.map Prod.snd).flatten).map FileRecord.path) := by
          rw [List.map_cons, List.flatten_cons, List.map_append] at hnd
          rw [List.nodup_append] at hnd
          exact ⟨hnd.1, hnd.2.1, fun p hp1 hp2 => hnd.2.2 hp1 hp2⟩
        obtain ⟨c1, c2, c3, c4⟩ := runFiles_inv fs0 cat rs ⟨fs1, st.moves, st.movedCount⟩
          hinvMid hcat (fun r hr => hlen (cat, rs) (List.mem_cons_self _ _) r hr)
          hndsplit.1
          (by
            intro r hr
            simp only []
            rw [hfq]
            exact hfresh (cat, rs) (List.mem_cons_self _ _) r hr)
          (by
            intro r hr m hm
            exact hnmv (cat, rs) (List.mem_cons_self _ _) r hr m hm)
        refine ih (runFiles [cat] ⟨fs1, st.moves, st.movedCount⟩ rs) st' hrun c1
          (fun g hg r hr => hlen g (List.mem_cons_of_mem _ hg) r hr)
          hndsplit.2.1 ?_ ?_
        · intro g hg r hr
          have hplen : r.path.length = 1 := hlen g (List.mem_cons_of_mem _ hg) r hr
          have hpmem : r.path ∈ ((gs.map Prod.snd).flatten).map FileRecord.path := by
            apply List.mem_map_of_mem FileRecord.path
            rw [List.mem_flatten]
            exact ⟨g.2, List.mem_map_of_mem Prod.snd hg, hr⟩
          have hnotin : ∀ r' ∈ rs, r.path ≠ r'.path := by
            intro r' hr' he
            exact hndsplit.2.2 r.path (by
              rw [he]
              exact List.mem_map_of_mem FileRecord.path hr') hpmem
          rw [c3 r.path hplen hnotin]
          simp only []
          rw [hfq]
          exact hfresh g (List.mem_cons_of_mem _ hg) r hr
        · intro g hg r hr m hm
          rcases c4 m hm with h1 | ⟨r', hr', he⟩
          · exact hnmv g (List.mem_cons_of_mem _ hg) r hr m h1
          · intro hc
            have hpmem : r.path ∈ ((gs.map Prod.snd).flatten).map FileRecord.path := by
              apply List.mem_map_of_mem FileRecord.path
              rw [List.mem_flatten]
              exact ⟨g.2, List.mem_map_of_mem Prod.snd hg, hr⟩
            exact hndsplit.2.2 r.path (by
              rw [hc, he]
              exact List.mem_map_of_mem FileRecord.path hr') hpmem
      · exact absurd habs (by simp)

/-! ### The scanner's grouping is a permutation of the scanned records -/

theorem groupInsert_flatten_perm {κ α : Type} [DecidableEq κ] (k : κ) (v : α) :
    ∀ (gs : List (κ × List α)),
      ((groupInsert k v gs).map Prod.snd).flatten.Perm
        (((gs.map Prod.snd).flatten) ++ [v]) := by
  intro gs
  induction gs with
  | nil => simp [groupInsert]
  | cons g rest ih =>
    obtain ⟨k', vs⟩ := g
    rw [groupInsert]
    by_cases hk : k = k'
    · rw [if_pos hk]
      simp only [List.map_cons, List.flatten_cons]
      rw [List.append_assoc, List.append_assoc]
      exact List.Perm.append_left vs List.perm_append_comm
    · rw [if_neg hk]
      simp only [List.map_cons, List.flatten_cons]
      rw [List.append_assoc]
      exact List.Perm.append_left vs ih

theorem scanGo_perm (statOk : FPath → Bool) :
    ∀ (es : List (FPath × FileData)) (gs : List (Name × List FileRecord)) (tot : Nat)
      (gs' : List (Name × List FileRecord)) (tot' : Nat),
      scanGo statOk es (gs, tot) = .ok (gs', tot') →
      ((gs'.map Prod.snd).flatten).Perm
        (((gs.map Prod.snd).flatten) ++ es.map fileRecordOf) := by
  intro es
  induction es with
  | nil =>
    intro gs tot gs' tot' h
    rw [scanGo] at h
    cases h
    simp
  | cons e es ih =>
    intro gs tot gs' tot' h
    rw [scanGo] at h
    by_cases hst : statOk e.1
    · rw [if_pos hst] at h
      have hperm := ih _ _ _ _ h
      have h2 := (groupInsert_flatten_perm (get_file_category e.1) (fileRecordOf e)
        gs).append_right (es.map fileRecordOf)
      have h3 := hperm.trans h2
      rw [List.append_assoc] at h3
      exact h3
    · rw [if_neg hst] at h
      cases h

theorem scan_perm (fs : FS) (statOk : FPath → Bool)
    (groups : List (Name × List FileRecord)) (tot : Nat)
    (h : scan_directory fs statOk = .ok (groups, tot)) :
    ((groups.map Prod.snd).flatten).Perm ((scanChildren fs).map fileRecordOf) := by
  have := scanGo_perm statOk (scanChildren fs) [] 0 groups tot h
  simpa using this

/-! ### Replaying a log with vacated, distinct sources restores every entry -/

theorem dirExists_congr (fs1 fs2 : FS) (h : fs1.dirs = fs2.dirs) (p : FPath) :
    fs1.dirExists p = fs2.dirExists p := by
  rw [FS.dirExists, FS.dirExists, h]

theorem replay_inv (V : MoveEntry → Option FileData) :
    ∀ (ms : List MoveEntry) (fs : FS),
      fs.WF →
      (∀ m ∈ ms, m.src.length = 1) →
      (∀ m ∈ ms, m.dst.length = 2) →
      (ms.map MoveEntry.src).Nodup →
      (ms.map MoveEntry.dst).Nodup →
      (∀ m ∈ ms, fs.file? m.dst = V m ∧ V m ≠ none) →
      (∀ m ∈ ms, fs.file? m.src = none) →
      (∀ m ∈ ms, fs.dirExists m.src = false) →
      (∀ m ∈ ms, (ms.foldl undoStep fs).file? m.src = V m) ∧
      ((ms.foldl undoStep fs).dirs = fs.dirs) ∧
      ((ms.foldl undoStep fs).history = fs.history) ∧
      (∀ p : FPath, (∀ m ∈ ms, p ≠ m.src ∧ p ≠ m.dst) →
        (ms.foldl undoStep fs).file? p = fs.file? p) := by
  intro ms
  induction ms with
  | nil =>
    intro fs _ _ _ _ _ _ _ _
    exact ⟨fun m hm => absurd hm (List.not_mem_nil m), rfl, rfl, fun p _ => rfl⟩
  | cons m ms ih =>
    intro fs hwf hsl hdl hsnd hdnd hhold hvac hdirex
    have hm0 : m ∈ m :: ms := List.mem_cons_self _ _
    have hmsl : m.src.length = 1 := hsl m hm0
    have hmdl : m.dst.length = 2 := hdl m hm0
    obtain ⟨hmv, hmvne⟩ := hhold m hm0
    have hfx : fs.fileExists m.dst = true := by
      rw [fileExists_true_iff]
      cases hv : fs.file? m.dst with
      | none => rw [hv] at hmv; exact absurd hmv.symm hmvne
      | some d => exact ⟨d, rfl⟩
    have hpx : fs.pathExists m.dst = true := by
      rw [FS.pathExists, hfx]
      rfl
    have hstep : undoStep fs m = fs.shMove m.dst m.src := undoStep_eq fs m hpx hmsl
    have hdirex1 : fs.dirExists m.src = false := hdirex m hm0
    have hshm : fs.shMove m.dst m.src = fs.movePath m.dst m.src :=
      shMove_eq_movePath fs m.dst m.src hdirex1
    obtain ⟨hsub, hdsub⟩ := hwf.file_sub hfx
    have hsrcnone : fs.file? m.src = none := hvac m hm0
    have hsrcf : ∀ e ∈ fs.files, e.1 ≠ m.src := (file?_none_iff fs m.src).1 hsrcnone
    have hne : m.dst ≠ m.src := by
      intro h
      rw [h, hmsl] at hmdl
      omega
    obtain ⟨hspec1, hspec2, hspec3⟩ := movePath_file?_spec fs m.dst m.src hne hsub hsrcf
    have hsrcpe : fs.pathExists m.src = false := by
      rw [FS.pathExists, (fileExists_false_iff fs m.src).2 hsrcnone, hdirex1]
      rfl
    have hsrcnil : m.src ≠ [] := by
      intro h
      rw [h] at hmsl
      simp at hmsl
    have hwf' : (fs.movePath m.dst m.src).WF :=
      WF_move fs m.dst m.src hwf hfx hsrcpe hsrcnil
        (by intro k hk1 hk2; rw [hmsl] at hk1; omega)
    have hdirs' : (fs.movePath m.dst m.src).dirs = fs.dirs :=
      movePath_dirs_eq fs m.dst m.src hdsub
    rw [List.map_cons, List.nodup_cons] at hsnd hdnd
    have hsmem : ∀ m' ∈ ms, m'.src ≠ m.src := by
      intro m' hm' h
      exact hsnd.1 (h ▸ List.mem_map_of_mem MoveEntry.src hm')
    have hdmem : ∀ m' ∈ ms, m'.dst ≠ m.dst := by
      intro m' hm' h
      exact hdnd.1 (h ▸ List.mem_map_of_mem MoveEntry.dst hm')
    have hsdlen : ∀ m' ∈ ms, m'.src ≠ m.dst := by
      intro m' hm' h
      have := hsl m' (List.mem_cons_of_mem _ hm')
      rw [h, hmdl] at this
      omega
    have hddlen : ∀ m' ∈ ms, m'.dst ≠ m.src := by
      intro m' hm' h
      have := hdl m' (List.mem_cons_of_mem _ hm')
      rw [h, hmsl] at this
      omega
    obtain ⟨c1, c2, c3, c4⟩ := ih (fs.movePath m.dst m.src) hwf'
      (fun m' hm' => hsl m' (List.mem_cons_of_mem _ hm'))
      (fun m' hm' => hdl m' (List.mem_cons_of_mem _ hm'))
      hsnd.2 hdnd.2
      (by
        intro m' hm'
        rw [hspec3 m'.dst (hdmem m' hm') (hddlen m' hm')]
        exact hhold m' (List.mem_cons_of_mem _ hm'))
      (by
        intro m' hm'
        rw [hspec3 m'.src (hsdlen m' hm') (hsmem m' hm')]
        exact hvac m' (List.mem_cons_of_mem _ hm'))
      (by
        intro m' hm'
        rw [dirExists_congr _ fs hdirs']
        exact hdirex m' (List.mem_cons_of_mem _ hm'))
    have hfold : (m :: ms).foldl undoStep fs = ms.foldl undoStep (fs.movePath m.dst m.src) := by
      rw [List.foldl_cons, hstep, hshm]
    refine ⟨?_, ?_, ?_, ?_⟩
    · intro m' hm'
      rcases List.mem_cons.1 hm' with heq | hmem
      · rw [heq]
        rw [hfold, c4 m.src (by
          intro m'' hm''
          exact ⟨fun h => hsmem m'' hm'' h.symm, fun h => hddlen m'' hm'' h.symm⟩)]
        rw [hspec1]
        exact hmv
      · rw [hfold]
        exact c1 m' hmem
    · rw [hfold, c2, hdirs']
    · rw [hfold, c3, movePath_history]
    · intro p hp
      rw [hfold, c4 p (fun m'' hm'' => hp m'' (List.mem_cons_of_mem _ hm''))]
      exact hspec3 p (hp m hm0).2 (hp m hm0).1

/-! ### C1: category organization followed by undo -/

theorem undo_none (fs : FS) (h : fs.history = none) :
    undo_last_organization fs = (fs, .noHistory) := by
  rw [undo_last_organization, h]

/-- C1 counterexample: a root holding a regular file named `Images` (no
extension, category `Other`) and `photo.jpg` (category `Images`).  The run
completes and records two moves, but undo cannot put the `Images` file back:
its restore target is now occupied by the `Images` directory the run created,
so `shutil.move` drops it inside that directory (at `Images/Images`) instead
of at its exact original source path, which stays vacant. -/
theorem C1_counterexample :
    organize_by_category
        ⟨[(["Images".toList], ⟨[9], 2023, 1, 1⟩), (["photo.jpg".toList], ⟨[7], 2023, 1, 1⟩)],
         [], none⟩ (fun _ => true) false [] =
      .ok ⟨⟨[(["Other".toList, "Images".toList], ⟨[9], 2023, 1, 1⟩),
             (["Images".toList, "photo.jpg".toList], ⟨[7], 2023, 1, 1⟩)],
            [["Other".toList], ["Images".toList]],
            some [⟨["Images".toList], ["Other".toList, "Images".toList]⟩,
                  ⟨["photo.jpg".toList], ["Images".toList, "photo.jpg".toList]⟩]⟩,
           [⟨["Images".toList], ["Other".toList, "Images".toList]⟩,
            ⟨["photo.jpg".toList], ["Images".toList, "photo.jpg".toList]⟩], 2⟩ ∧
    (undo_last_organization
        ⟨[(["Other".toList, "Images".toList], ⟨[9], 2023, 1, 1⟩),
          (["Images".toList, "photo.jpg".toList], ⟨[7], 2023, 1, 1⟩)],
         [["Other".toList], ["Images".toList]],
         some [⟨["Images".toList], ["Other".toList, "Images".toList]⟩,
               ⟨["photo.jpg".toList], ["Images".toList, "photo.jpg".toList]⟩]⟩).1.file?
      ["Images".toList] = none ∧
    (FS.mk [(["Images".toList], ⟨[9], 2023, 1, 1⟩),
            (["photo.jpg".toList], ⟨[7], 2023, 1, 1⟩)] [] none).file? ["Images".toList] =
      some ⟨[9], 2023, 1, 1⟩ :=
  ⟨rfl, rfl, rfl⟩

/-- C1 (amended): for a category run on a well-formed root, started on a
fresh organizer and completed, whose log is non-empty and in which no
recorded source path is shadowed by a directory of the resulting state
(as the counterexample `C1_counterexample` shows can happen when a moved
file bears the name of a category folder the run created), undo moves every
file recorded in the persisted log back to its exact original source path
with its original data, deletes the persisted log, and a second undo
immediately afterwards fails with `NoHistory`.  A run that recorded zero
moves instead fails with `EmptyHistory` and keeps the log (`C3_empty_history`
territory), which is why the non-empty-log proviso is needed. -/
theorem C1_round_trip (fs0 : FS) (statOk : FPath → Bool) (st : OrgState)
    (hwf : fs0.WF)
    (hrun : organize_by_category fs0 statOk false [] = .ok st)
    (hne : st.moves ≠ [])
    (hsh : ∀ m ∈ st.moves, st.fs.dirExists m.src = false) :
    (∀ m ∈ st.moves,
      (undo_last_organization st.fs).1.file? m.src = fs0.file? m.src ∧
      fs0.file? m.src ≠ none) ∧
    (undo_last_organization st.fs).1.history = none ∧
    (undo_last_organization (undo_last_organization st.fs).1).2 = .noHistory := by
  rw [organize_by_category] at hrun
  cases hs : scan_directory fs0 statOk with
  | error e => rw [hs] at hrun; cases hrun
  | ok res =>
    rw [hs] at hrun
    obtain ⟨groups, tot⟩ := res
    simp only [Bool.false_eq_true, if_false] at hrun
    cases hr : runGroups ⟨fs0, [], 0⟩ groups with
    | error e => rw [hr] at hrun; cases hrun
    | ok st1 =>
      rw [hr] at hrun
      cases hrun
      have hperm := scan_perm fs0 statOk groups tot hs
      have hch_paths : ∀ r, r ∈ (groups.map Prod.snd).flatten →
          ∃ e ∈ scanChildren fs0, r = fileRecordOf e := by
        intro r hr2
        have hm := (hperm.mem_iff).1 hr2
        rw [List.mem_map] at hm
        obtain ⟨e, he, hre⟩ := hm
        exact ⟨e, he, hre.symm⟩
      have hsc_sub : ∀ e ∈ scanChildren fs0, e ∈ fs0.files ∧ e.1.length = 1 := by
        intro e he
        have hmem := List.mem_of_mem_filter he
        have hcond := (List.mem_filter.1 he).2
        rw [Bool.and_eq_true] at hcond
        exact ⟨hmem, of_decide_eq_true hcond.1⟩
      have hinv0 : RunInv fs0 ⟨fs0, [], 0⟩ :=
        ⟨hwf, rfl, fun m hm => absurd hm (List.not_mem_nil m),
         fun m hm => absurd hm (List.not_mem_nil m), by simp, by simp,
         fun m hm => absurd hm (List.not_mem_nil m),
         fun m hm => absurd hm (List.not_mem_nil m),
         fun m hm => absurd hm (List.not_mem_nil m)⟩
      have hnd : (((groups.map Prod.snd).flatten).map FileRecord.path).Nodup := by
        have h1 : ((scanChildren fs0).map fileRecordOf).map FileRecord.path =
            (scanChildren fs0).map Prod.fst := by
          rw [List.map_map]
          apply List.map_congr_left
          intro e _
          rfl
        have h2 : ((scanChildren fs0).map Prod.fst).Nodup := by
          have hsubl : ((scanChildren fs0).map Prod.fst).Sublist
              (fs0.files.map Prod.fst) := by
            rw [scanChildren]
            exact (List.filter_sublist fs0.files).map Prod.fst
          exact hwf.nodupFiles.sublist hsubl
        have h3 := hperm.map FileRecord.path
        rw [h1] at h3
        exact (h3.nodup_iff).2 h2
      have hlen : ∀ g ∈ groups, ∀ r ∈ g.2, r.path.length = 1 := by
        intro g hg r hr2
        obtain ⟨e, he, hre⟩ := hch_paths r
          (List.mem_flatten.2 ⟨g.2, List.mem_map_of_mem Prod.snd hg, hr2⟩)
        rw [hre]
        exact (hsc_sub e he).2
      have hfresh : ∀ g ∈ groups, ∀ r ∈ g.2,
          (⟨fs0, [], 0⟩ : OrgState).fs.file? r.path = fs0.file? r.path ∧
          fs0.file? r.path ≠ none := by
        intro g hg r hr2
        obtain ⟨e, he, hre⟩ := hch_paths r
          (List.mem_flatten.2 ⟨g.2, List.mem_map_of_mem Prod.snd hg, hr2⟩)
        refine ⟨rfl, ?_⟩
        have hsome := file?_eq_some_of_mem fs0 hwf.nodupFiles e (hsc_sub e he).1
        rw [hre]
        simp only [fileRecordOf]
        rw [hsome]
        intro hcontra
        cases hcontra
      have hinv1 : RunInv fs0 st1 := runGroups_inv fs0 groups ⟨fs0, [], 0⟩ st1 hr hinv0
        hlen hnd hfresh (fun g hg r hr2 m hm => absurd hm (List.not_mem_nil m))
      simp only [saveHistory] at hne hsh ⊢
      have hmsne : st1.moves ≠ [] := hne
      have hfsWF : (FS.mk st1.fs.files st1.fs.dirs (some st1.moves)).WF :=
        WF_sethist st1.fs hinv1.wf (some st1.moves)
      obtain ⟨c1, c2, c3, c4⟩ := replay_inv (fun m => fs0.file? m.src)
        st1.moves.reverse (FS.mk st1.fs.files st1.fs.dirs (some st1.moves))
        hfsWF
        (fun m hm => hinv1.srcLen m (List.mem_reverse.1 hm))
        (fun m hm => hinv1.dstLen m (List.mem_reverse.1 hm))
        (by rw [List.map_reverse]; exact (List.nodup_reverse).2 hinv1.srcNd)
        (by rw [List.map_reverse]; exact (List.nodup_reverse).2 hinv1.dstNd)
        (by
          intro m hm
          rw [file?_sethist]
          exact ⟨hinv1.dstHolds m (List.mem_reverse.1 hm),
            hinv1.srcSome m (List.mem_reverse.1 hm)⟩)
        (by
          intro m hm
          rw [file?_sethist]
          exact hinv1.srcVac m (List.mem_reverse.1 hm))
        (fun m hm => hsh m (List.mem_reverse.1 hm))
      have hundo := undo_some (FS.mk st1.fs.files st1.fs.dirs (some st1.moves))
        st1.moves rfl hmsne
      rw [hundo]
      refine ⟨?_, rfl, ?_⟩
      · intro m hm
        have hmr : m ∈ st1.moves.reverse := List.mem_reverse.2 hm
        refine ⟨?_, hinv1.srcSome m hm⟩
        have hfilesq := (removeEmptyDirs_spec
          (st1.moves.reverse.foldl undoStep
            (FS.mk st1.fs.files st1.fs.dirs (some st1.moves))))
        have hfe : (FS.mk (removeEmptyDirs (st1.moves.reverse.foldl undoStep
            (FS.mk st1.fs.files st1.fs.dirs (some st1.moves)))).files
            (removeEmptyDirs (st1.moves.reverse.foldl undoStep
              (FS.mk st1.fs.files st1.fs.dirs (some st1.moves)))).dirs none).file? m.src =
            (st1.moves.reverse.foldl undoStep
              (FS.mk st1.fs.files st1.fs.dirs (some st1.moves))).file? m.src := by
          apply file?_congr_files
          rw [hfilesq]
        rw [hfe]
        exact c1 m hmr
      · rw [undo_none]
        rfl

/-- Witness for `C1_round_trip`. -/
theorem C1_round_trip_witness :
    (undo_last_organization (FS.mk
        [(["Documents".toList, "a.txt".toList], ⟨[1], 2023, 3, 15⟩)]
        [["Documents".toList]]
        (some [⟨["a.txt".toList], ["Documents".toList, "a.txt".toList]⟩]))).1.history =
      none :=
  (C1_round_trip ⟨[(["a.txt".toList], ⟨[1], 2023, 3, 15⟩)], [], none⟩ (fun _ => true)
    ⟨⟨[(["Documents".toList, "a.txt".toList], ⟨[1], 2023, 3, 15⟩)], [["Documents".toList]],
      some [⟨["a.txt".toList], ["Documents".toList, "a.txt".toList]⟩]⟩,
     [⟨["a.txt".toList], ["Documents".toList, "a.txt".toList]⟩], 1⟩
    ⟨by decide, by decide, by decide, by decide, by decide, by decide, by decide⟩
    rfl (by decide) (by decide)).2.1
